import Mathlib

/-!
Shallow embedding of the core of the `smart-file-search` repository
(`src/search_agent/extractor.py`, `indexer.py`, `search.py`,
`simple_search.py`) together with theorems checking the repository's
natural-language specification against the code.

Texts are modelled as `List Char`, machine integers as `Nat`/`Int`
(Python integers are unbounded, so no wrap-around is modelled), and the
SQLite store as explicit lists of rows.
-/

namespace SmartFileSearch

/-! ## Character classes (Python semantics) -/

/-- Python `str.strip()` whitespace set (ASCII part used by the code). -/
def isPySpace (c : Char) : Bool :=
  c = ' ' || c = '\t' || c = '\n' || c = '\x0d' || c = '\x0b' || c = '\x0c'

/-- The word-boundary set of `ContentExtractor._chunk_text`
(extractor.py line 327): `text[i] in ' \n\t.!?'`. -/
def isBoundaryChar (c : Char) : Bool :=
  c = ' ' || c = '\n' || c = '\t' || c = '.' || c = '!' || c = '?'

/-- Python regex `\w` on ASCII: letters, digits, underscore. -/
def isWordChar (c : Char) : Bool :=
  (('a' ≤ c && c ≤ 'z') || ('A' ≤ c && c ≤ 'Z') ||
   ('0' ≤ c && c ≤ '9') || c = '_')

/-- Python `str.strip()`: drop leading and trailing whitespace. -/
def pyStrip (l : List Char) : List Char :=
  ((l.dropWhile isPySpace).reverse.dropWhile isPySpace).reverse

/-! ## Chunker (`ContentExtractor._chunk_text`, extractor.py lines 312-340)

`chunk_size` and `chunk_overlap` are the constructor parameters of
`ContentExtractor` (defaults 1000 and 100). -/

/-- The backward scan
`for i in range(end, max(start + self.chunk_size // 2, end - 100), -1)`
(extractor.py line 326): starting at `i` and walking down to `lo`
exclusive, return the first index whose character is a boundary
character, or `none`.  Out-of-range reads never happen on the code's
executions (`i < len(text)` there); the default `'a'` is harmless. -/
def scanBack (text : List Char) (lo : Nat) : Nat → Option Nat
  | 0 => none
  | i + 1 =>
    if i + 1 ≤ lo then none
    else if isBoundaryChar (text.getD (i + 1) 'a') then some (i + 1)
    else scanBack text lo i

/-- The end offset one loop iteration chooses (extractor.py lines
321-329): tentative `end = start + chunk_size`; if `end < len(text)`
snap `end` to one past a boundary character found by the backward scan
(`end = i + 1`), else keep it.  When `end - 100` underflows, Python's
negative value and the truncated `Nat` value give the same `max`. -/
def chunkEnd (cs : Nat) (text : List Char) (start : Nat) : Nat :=
  if start + cs < text.length then
    match scanBack text (max (start + cs / 2) (start + cs - 100)) (start + cs) with
    | some i => i + 1
    | none => start + cs
  else start + cs

/-- One iteration of the chunking loop: from offset `start` compute the
emitted (stripped) chunk and the next start offset.
Mirrors extractor.py lines 320-338: emit `text[start:end].strip()`;
`start = end - chunk_overlap`. -/
def chunkStep (cs ov : Nat) (text : List Char) (start : Nat) :
    List Char × Nat :=
  (pyStrip ((text.drop start).take (chunkEnd cs text start - start)),
   chunkEnd cs text start - ov)

/-- The `while start < len(text)` loop of `_chunk_text`, with explicit
fuel: `none` means the fuel was exhausted before the loop finished
(the Python loop would still be running).  A chunk that strips to the
empty string is dropped (`if chunk: chunks.append(chunk)`). -/
def chunkLoop (cs ov : Nat) (text : List Char) :
    Nat → Nat → Option (List (List Char))
  | fuel, start =>
    if start ≥ text.length then some []
    else
      match fuel with
      | 0 => none
      | fuel + 1 =>
        (chunkLoop cs ov text fuel (chunkStep cs ov text start).2).map
          (fun rest => if (chunkStep cs ov text start).1.isEmpty then rest
                       else (chunkStep cs ov text start).1 :: rest)

/-- `ContentExtractor._chunk_text`: a single untrimmed chunk when the
text fits in `chunk_size` (extractor.py line 314), otherwise the loop.
The fuel `text.length + 1` is shown sufficient whenever
`2 * chunk_overlap < chunk_size` (see the termination theorem); when the
loop would not terminate the model returns `[]`. -/
def chunkText (cs ov : Nat) (text : List Char) : List (List Char) :=
  if text.length ≤ cs then [text]
  else (chunkLoop cs ov text (text.length + 1) 0).getD []

/-! ## Query parsers

Two parsers exist in the source: `SearchEngine._build_fts_query`
(search.py lines 120-156) and `SimpleFileSearch._prepare_fts_query`
(simple_search.py lines 111-129). -/

/-- Python `str.split()`: split on whitespace runs, dropping empty
pieces.  `acc` holds the characters of the current token, reversed. -/
def pySplitAux : List Char → List Char → List (List Char)
  | [], acc => if acc.isEmpty then [] else [acc.reverse]
  | c :: rest, acc =>
    if isPySpace c then
      if acc.isEmpty then pySplitAux rest []
      else acc.reverse :: pySplitAux rest []
    else pySplitAux rest (c :: acc)

def pySplit (l : List Char) : List (List Char) := pySplitAux l []

/-- One left-to-right pass implementing both
`re.findall(r'"([^"]*)"', query)` and `re.sub(r'"[^"]*"', '', query)`:
returns the quoted phrases in order and the text with the quoted spans
(quotes included) removed.  `none`/`some acc` is the regex scanner state
outside/inside a quoted span; an unmatched final `"` is not a match and
stays in the remainder together with the text after it. -/
def phraseScan : List Char → Option (List Char) → List (List Char) × List Char
  | [], none => ([], [])
  | [], some acc => ([], '"' :: acc.reverse)
  | c :: rest, none =>
    if c = '"' then phraseScan rest (some [])
    else
      let r := phraseScan rest none
      (r.1, c :: r.2)
  | c :: rest, some acc =>
    if c = '"' then
      let r := phraseScan rest none
      (acc.reverse :: r.1, r.2)
    else phraseScan rest (some (c :: acc))

/-- `re.sub(r'[^\w\s]', '', term)` (search.py line 149). -/
def ftsEscape (t : List Char) : List Char :=
  t.filter (fun c => isWordChar c || isPySpace c)

/-- The `phrases` list of `_build_fts_query` (search.py line 128). -/
def buildFtsPhrases (q : List Char) : List (List Char) :=
  (phraseScan (pyStrip q) none).1

/-- The `remaining` text of `_build_fts_query` (search.py line 133). -/
def buildFtsRemaining (q : List Char) : List Char :=
  (phraseScan (pyStrip q) none).2

/-- The `escaped_terms` list of `_build_fts_query`
(search.py lines 146-151). -/
def buildFtsEscapedTerms (q : List Char) : List (List Char) :=
  (pySplit (buildFtsRemaining q)).filterMap
    (fun t => let e := ftsEscape t; if e.isEmpty then none else some e)

/-- `SearchEngine._build_fts_query` (search.py lines 120-156): phrases
are re-quoted; the bare terms are joined with `' OR '`; the parts are
joined with a space; empty input gives `"*"`. -/
def buildFtsQuery (q : List Char) : List Char :=
  let qs := pyStrip q
  if qs.isEmpty then ['*']
  else
    let phraseParts := (buildFtsPhrases q).filterMap
      (fun ph => if (pyStrip ph).isEmpty then none
                 else some ('"' :: (ph ++ ['"'])))
    let terms := buildFtsEscapedTerms q
    let parts := phraseParts ++
      (if terms.isEmpty then [] else [List.intercalate (' ' :: 'O' :: 'R' :: [' ']) terms])
    if parts.isEmpty then qs else List.intercalate [' '] parts

/-- `re.sub(r'[^\w\s.-]', ' ', query)` applied per character
(simple_search.py line 114). -/
def prepareCleanChar (c : Char) : Char :=
  if isWordChar c || isPySpace c || c = '.' || c = '-' then c else ' '

/-- The `terms` list of `SimpleFileSearch._prepare_fts_query`
(simple_search.py lines 117-126): words of length ≥ 3 get a trailing
`*`, words of length 2 stay bare, shorter words are dropped. -/
def prepareTerms (q : List Char) : List (List Char) :=
  (pySplit (q.map prepareCleanChar)).filterMap
    (fun w => if 3 ≤ w.length then some (w ++ ['*'])
              else if 2 ≤ w.length then some w
              else none)

/-- `SimpleFileSearch._prepare_fts_query` (simple_search.py lines
111-129): join the surviving terms with `' AND '`; if none survive,
return the raw query. -/
def prepareFtsQuery (q : List Char) : List Char :=
  if (prepareTerms q).isEmpty then q
  else List.intercalate (' ' :: 'A' :: 'N' :: 'D' :: [' ']) (prepareTerms q)

/-! ## FTS match semantics

Modelled from the spec: the inverted index (spec §3) supports
"(1) boolean AND/OR of terms, (2) exact phrase match" and (glossary)
prefix wildcards `term*`; a document is abstracted as its list of
tokens ("modulo FTS tokenization").  The SQLite FTS5 engine itself is
outside the repository. -/

/-- A single FTS term against one document token: `foo*` matches any
token with prefix `foo`; a bare term matches by equality. -/
def termMatches (pat token : List Char) : Bool :=
  if pat.getLast? == some '*' then pat.dropLast.isPrefixOf token
  else pat == token

/-- Does some token of the document match the term? -/
def docHasTerm (doc : List (List Char)) (pat : List Char) : Bool :=
  doc.any (fun tok => termMatches pat tok)

/-- AND semantics over a term list. -/
def docMatchesAll (doc : List (List Char)) (pats : List (List Char)) : Bool :=
  pats.all (fun p => docHasTerm doc p)

/-- OR semantics over a term list. -/
def docMatchesAny (doc : List (List Char)) (pats : List (List Char)) : Bool :=
  pats.any (fun p => docHasTerm doc p)

/-! ## The `years` filter (`SearchEngine._build_filters`, search.py lines 171-186) -/

/-- The pair `(start_ts, end_ts)` the code computes for a year `y`:
`int(f"{y}0101000000")` and `int(f"{y}1231235959")`, i.e. the decimal
concatenations `y·10^10 + 101000000` and `y·10^10 + 1231235959`. -/
def yearBounds (year : Nat) : Int × Int :=
  ((year : Int) * 10000000000 + 101000000,
   (year : Int) * 10000000000 + 1231235959)

/-- One `(f.mtime >= ? AND f.mtime <= ?)` condition (search.py line 180). -/
def yearCondition (year : Nat) (mtime : Int) : Bool :=
  (yearBounds year).1 ≤ mtime && mtime ≤ (yearBounds year).2

/-- Python `int(...)` on a year string, for the decimal-digit forms the
filter meets: `none` when the string is empty or has a non-digit
character (the code catches the `ValueError` and skips the year). -/
def parseYear (s : String) : Option Nat :=
  if s.toList.isEmpty then none
  else
    s.toList.foldl
      (fun acc c =>
        acc.bind (fun n =>
          if '0' ≤ c ∧ c ≤ '9' then some (n * 10 + (c.toNat - '0'.toNat))
          else none))
      (some 0)

/-- Whether a row with modification time `mtime` passes the `years`
filter: with no valid year strings no clause is added (every row
passes); otherwise the per-year conditions are joined with `OR`. -/
def yearsFilterAdmits (years : List String) (mtime : Int) : Bool :=
  let conds := years.filterMap parseYear
  if years.isEmpty then true
  else if conds.isEmpty then true
  else conds.any (fun y => yearCondition y mtime)

/-- Modelled from the spec: "each year y narrows to
mtime ∈ [start_of_year(y), end_of_year(y)]" — 1704067200 is the UTC
epoch second of 2024-01-01 00:00:00, the start of year 2024. -/
def year2024Start : Int := 1704067200

/-- Modelled from the spec: 1735689599 is the UTC epoch second of
2024-12-31 23:59:59, the end of year 2024. -/
def year2024End : Int := 1735689599

/-! ## The chunker as the claim words it (comparison definition) -/

/-- Comparison definition, following the claim's words (spec §4.3 rule
2) rather than the source: the backward scan runs from the tentative
end all the way toward `start + chunk_size/2`, with no 100-character
clamp.  Compare `chunkStep`. -/
def chunkEndClaim (cs : Nat) (text : List Char) (start : Nat) : Nat :=
  if start + cs < text.length then
    match scanBack text (start + cs / 2) (start + cs) with
    | some i => i + 1
    | none => start + cs
  else start + cs

/-- One iteration of the chunker as the claim words it. -/
def chunkStepClaim (cs ov : Nat) (text : List Char) (start : Nat) :
    List Char × Nat :=
  (pyStrip ((text.drop start).take (chunkEndClaim cs text start - start)),
   chunkEndClaim cs text start - ov)

/-- The chunking loop built on `chunkStepClaim`. -/
def chunkLoopClaim (cs ov : Nat) (text : List Char) :
    Nat → Nat → Option (List (List Char))
  | fuel, start =>
    if start ≥ text.length then some []
    else
      match fuel with
      | 0 => none
      | fuel + 1 =>
        (chunkLoopClaim cs ov text fuel (chunkStepClaim cs ov text start).2).map
          (fun rest => if (chunkStepClaim cs ov text start).1.isEmpty then rest
                       else (chunkStepClaim cs ov text start).1 :: rest)

/-- The whole chunker as the claim words it. -/
def chunkTextClaim (cs ov : Nat) (text : List Char) : List (List Char) :=
  if text.length ≤ cs then [text]
  else (chunkLoopClaim cs ov text (text.length + 1) 0).getD []

/-! ## Store model

The SQLite database.  The schema file `schema.sql` is not part of the
sources; Modelled from the spec (§6): `files(id INTEGER PK, path TEXT
UNIQUE NOT NULL, size, mtime, ext, ...)` and `docs(file_id, pointer,
content)` (the FTS chunk table the code's SQL calls `docs`).  Row lists
are kept in rowid (insertion) order. -/

structure FileRow where
  id : Nat
  path : String
  size : Nat
  mtime : Int
  ext : String
deriving DecidableEq, Repr

structure DocRow where
  file_id : Nat
  pointer : String
  content : List Char
deriving DecidableEq, Repr

structure Store where
  files : List FileRow
  docs : List DocRow
deriving DecidableEq, Repr

/-- `INSERT OR REPLACE INTO files (path, size, mtime, ext) VALUES ...`
(indexer.py lines 214-222) under the spec schema: the conflicting row
with the same `path` (if any) is deleted and the fresh row receives the
next rowid `max(remaining ids) + 1` (SQLite assigns `max+1` to an
unspecified rowid).  Returns `conn.lastrowid` and the new store. -/
def upsertNewId (st : Store) (path : String) : Nat :=
  ((st.files.filter (fun r => r.path != path)).map (fun r => r.id)).foldr max 0 + 1

/-- The store after the `INSERT OR REPLACE`, paired with the new id. -/
def upsertFile (st : Store) (path : String) (size : Nat) (mtime : Int)
    (ext : String) : Nat × Store :=
  (upsertNewId st path,
   { st with files := st.files.filter (fun r => r.path != path) ++
       [⟨upsertNewId st path, path, size, mtime, ext⟩] })

/-- Well-formedness of the store, as the spec schema guarantees it:
paths are unique (`path TEXT UNIQUE`) and ids are unique (`id INTEGER
PK`). -/
def Store.WF (st : Store) : Prop :=
  (st.files.map (fun r => r.path)).Nodup ∧ (st.files.map (fun r => r.id)).Nodup

/-! ## Crawler / indexer (`FileIndexer`, indexer.py) -/

structure Config where
  allowedRoots : List String
  supportedExtensions : List String
  maxFileSize : Nat
  chunkSize : Nat
  chunkOverlap : Nat
deriving Repr

/-- A file on disk.  `text` abstracts the per-format extractor output of
`ContentExtractor.extract_content` (extractor.py lines 61-101) before
chunking: `none` models an unsupported extension or a failed/undecodable
extraction (every such branch returns `[]` from `extract_content`),
`some t` the extracted text. -/
structure FsFile where
  path : String
  size : Nat
  mtime : Int
  text : Option (List Char)
deriving DecidableEq, Repr

/-- The filesystem: existing directories and the files on disk. -/
structure Filesystem where
  dirs : List String
  files : List FsFile
deriving Repr

/-- `Path(filename).suffix.lower()`: the basename's extension including
the leading dot, lowercased; empty when the last dot is absent, leading,
or trailing (pathlib's rule `0 < i < len(name) - 1` on `name.rfind('.')`
adapted to index arithmetic). -/
def extOf (p : String) : String :=
  let name := (p.toList.reverse.takeWhile (fun c => c != '/')).reverse
  match name.reverse.findIdx? (fun c => c = '.') with
  | none => ""
  | some j =>
    let i := name.length - 1 - j
    if 0 < i ∧ i < name.length - 1
    then String.mk ((name.drop i).map Char.toLower)
    else ""

/-- `FileIndexer._is_allowed_root` (indexer.py lines 114-122): accept
when the allow-list is empty, else when the root string-starts-with some
allowed entry (`abs_root.startswith(os.path.abspath(allowed))`).
`os.path.abspath` is modelled as the identity: paths are taken
pre-normalized and absolute. -/
def isAllowedRoot (cfg : Config) (root : String) : Bool :=
  cfg.allowedRoots.isEmpty ||
    cfg.allowedRoots.any (fun a => a.toList.isPrefixOf root.toList)

/-- Comparison definition, following the claim's words: `p` equals `a`
or is a path-wise descendant of `a`. -/
def isPathDescendant (a p : String) : Bool :=
  p == a || (a.toList ++ ['/']).isPrefixOf p.toList

/-- Split a character list at `'/'`. -/
def splitSlashAux : List Char → List Char → List (List Char)
  | [], acc => [acc.reverse]
  | c :: rest, acc =>
    if c = '/' then acc.reverse :: splitSlashAux rest []
    else splitSlashAux rest (c :: acc)

/-- `p` lies inside directory `root` (the `os.walk(root_path)`
enumeration reaches it): `root ++ "/"` is a string prefix of `p`. -/
def isUnderDir (root p : String) : Bool :=
  (root.toList ++ ['/']).isPrefixOf p.toList

/-- Some component of `p` relative to `root` starts with `'.'` — such
files are pruned by the walk (indexer.py lines 152-156: hidden
directories are removed from `dirs`, hidden filenames skipped). -/
def isHiddenUnder (root p : String) : Bool :=
  (splitSlashAux (p.toList.drop (root.toList.length + 1)) []).any
    (fun comp => comp.head? == some '.')

/-- `FileIndexer._scan_files` (indexer.py lines 143-176): the files
under `root`, with hidden components pruned, restricted to the allowed
extensions (only when the allow-set is non-empty) and to sizes not
exceeding the maximum, in walk order (modelled by the `fs.files` list
order). -/
def scanFiles (cfg : Config) (fs : Filesystem) (root : String) :
    List FsFile :=
  fs.files.filter (fun f =>
    isUnderDir root f.path && !(isHiddenUnder root f.path) &&
    (cfg.supportedExtensions.isEmpty ||
      cfg.supportedExtensions.contains (extOf f.path)) &&
    decide (f.size ≤ cfg.maxFileSize))

/-- `FileIndexer._get_existing_files` (indexer.py lines 124-141):
`SELECT path, size, mtime FROM files WHERE path LIKE 'root%'`, i.e. the
rows whose path has `root` as a string prefix (roots are assumed free of
`LIKE` wildcards). -/
def getExistingFiles (st : Store) (root : String) : List FileRow :=
  st.files.filter (fun r => root.toList.isPrefixOf r.path.toList)

/-- Snapshot lookup (`existing_files[file_path]`). -/
def lookupSnapshot (existing : List FileRow) (p : String) :
    Option (Nat × Int) :=
  (existing.find? (fun r => r.path == p)).map (fun r => (r.size, r.mtime))

/-- `FileIndexer._should_index_file` (indexer.py lines 178-198): in full
mode always index; otherwise index iff the path is missing from the
snapshot or its current `(size, mtime)` differs from the snapshot's. -/
def shouldIndexFile (full : Bool) (existing : List FileRow) (f : FsFile) :
    Bool :=
  if full then true
  else
    match lookupSnapshot existing f.path with
    | none => true
    | some (sz, mt) => !(sz == f.size && mt == f.mtime)

/-- `ContentExtractor.extract_content` (extractor.py lines 61-101) with
the per-format extraction abstracted into `f.text`: a failed or
unsupported extraction yields `[]`, an empty text yields `[]`
(`if not content: return []`), otherwise the chunker runs. -/
def extractContent (cfg : Config) (f : FsFile) : List (List Char) :=
  match f.text with
  | none => []
  | some t => if t.isEmpty then [] else chunkText cfg.chunkSize cfg.chunkOverlap t

/-- The store writes of `_index_file` (indexer.py lines 212-238):
upsert the file row, delete the docs rows carrying the fresh file id
(`DELETE FROM docs WHERE file_id = ?`), and insert one docs row per
chunk with pointers `chunk_0 …`. -/
def indexFileWrite (st : Store) (path : String) (size : Nat) (mtime : Int)
    (ext : String) (chunks : List (List Char)) : Store :=
  ⟨(upsertFile st path size mtime ext).2.files,
   (upsertFile st path size mtime ext).2.docs.filter
       (fun d => d.file_id != (upsertFile st path size mtime ext).1) ++
     chunks.enum.map
       (fun p => ⟨(upsertFile st path size mtime ext).1,
                  "chunk_" ++ toString p.1, p.2⟩)⟩

/-- `FileIndexer._index_file` (indexer.py lines 200-243): when no
content was extracted, return without touching the store; otherwise
perform the store writes. -/
def indexFile (cfg : Config) (st : Store) (f : FsFile) : Store :=
  if (extractContent cfg f).isEmpty then st
  else indexFileWrite st f.path f.size f.mtime (extOf f.path) (extractContent cfg f)

/-- `FileIndexer._remove_file_from_index` (indexer.py lines 245-264):
look up the file id of `p` (first row, per `fetchone`), then delete its
docs rows and its file row; do nothing when no row exists. -/
def removeFileFromIndex (st : Store) (p : String) : Store :=
  match st.files.find? (fun r => r.path == p) with
  | none => st
  | some row =>
    ⟨st.files.filter (fun r => r.id != row.id),
     st.docs.filter (fun d => d.file_id != row.id)⟩

structure IndexStats where
  indexed : Nat
  skipped : Nat
  removed : Nat
  errors : Nat
deriving DecidableEq, Repr

/-- `FileIndexer.index_folder` (indexer.py lines 48-112).  The pair's
second component is the store after the call: on the two fatal errors
(raised before any store access) the store is returned unchanged.  The
crawl loop walks the scanned files in order, indexing or skipping each;
afterwards every snapshot path not observed in this walk is removed.
Per-file errors and the low-priority sleep have no pure-model effect
(`errors` stays 0).

The crawl loop (indexer.py lines 80-96): fold over the scanned files in
walk order, indexing or skipping each, threading the store and the
`indexed`/`skipped` counters. -/
def crawlStep (cfg : Config) (full : Bool) (existing : List FileRow)
    (acc : Store × Nat × Nat) (f : FsFile) : Store × Nat × Nat :=
  if shouldIndexFile full existing f
  then (indexFile cfg acc.1 f, acc.2.1 + 1, acc.2.2)
  else (acc.1, acc.2.1, acc.2.2 + 1)

/-- The fold of `crawlStep` over the scanned files starting from the
incoming store and zeroed counters. -/
def crawlLoop (cfg : Config) (full : Bool) (existing : List FileRow)
    (scanned : List FsFile) (st : Store) : Store × Nat × Nat :=
  scanned.foldl (crawlStep cfg full existing) (st, 0, 0)

/-- The snapshot paths not observed in this walk
(`set(existing_files.keys()) - current_files`, indexer.py line 99). -/
def removedPathsOf (st : Store) (root : String) (scanned : List FsFile) :
    List String :=
  ((getExistingFiles st root).map (fun r => r.path)).filter
    (fun p => !((scanned.map (fun f => f.path)).contains p))

/-- `FileIndexer.index_folder` (indexer.py lines 48-112): authorization
and existence checks (raised before any store access — the store comes
back unchanged in the error cases), then the crawl loop, then the
removal of unobserved snapshot paths. -/
def indexFolder (cfg : Config) (fs : Filesystem) (st : Store)
    (root : String) (full : Bool) : Except String IndexStats × Store :=
  if !(isAllowedRoot cfg root) then (.error "NotAuthorized", st)
  else if !(fs.dirs.contains root) then (.error "RootMissing", st)
  else
    (.ok ⟨(crawlLoop cfg full (getExistingFiles st root) (scanFiles cfg fs root) st).2.1,
          (crawlLoop cfg full (getExistingFiles st root) (scanFiles cfg fs root) st).2.2,
          (removedPathsOf st root (scanFiles cfg fs root)).length, 0⟩,
     (removedPathsOf st root (scanFiles cfg fs root)).foldl removeFileFromIndex
       (crawlLoop cfg full (getExistingFiles st root) (scanFiles cfg fs root) st).1)

/-! ## Preview (`SearchEngine.get_file_preview`, search.py lines 294-353) -/

/-- The rows the preview SQL returns: docs joined to the file row with
the requested path, restricted to the requested pointer when one is
given, in docs rowid order (`ORDER BY d.rowid` in the pointerless
query). -/
def previewRows (st : Store) (path : String) (pointer : Option String) :
    List (List Char × Nat) :=
  st.docs.filterMap (fun d =>
    match st.files.find? (fun f => (f.id == d.file_id) && (f.path == path)) with
    | none => none
    | some f =>
      match pointer with
      | some ptr => if d.pointer == ptr then some (d.content, f.size) else none
      | none => some (d.content, f.size))

structure Preview where
  path : String
  pointer : Option String
  preview : List Char
  truncated : Bool
  file_size : Nat
deriving DecidableEq, Repr

/-- `SearchEngine.get_file_preview` (search.py lines 294-353): fetch the
chunk (`fetchone` — the first row); `none` models the
`ValueError("File not found in index")` raise.  When the content exceeds
`before + after`, a window of at most `before + after` characters around
the middle is cut out (`start = max(0, len//2 - before//2)`,
`end = min(len, start + before + after)`). -/
def previewWindowStart (content : List Char) (before : Nat) : Nat :=
  content.length / 2 - before / 2

/-- The window end `end = min(len, start + before + after)`
(search.py line 340). -/
def previewWindowEnd (content : List Char) (before after : Nat) : Nat :=
  min content.length (previewWindowStart content before + before + after)

/-- The preview result: `none` models the raise. -/
def getFilePreview (st : Store) (path : String) (pointer : Option String)
    (before after : Nat) : Option Preview :=
  match (previewRows st path pointer).head? with
  | none => none
  | some (content, fsize) =>
    if before + after < content.length then
      some ⟨path, pointer,
        (content.drop (previewWindowStart content before)).take
          (previewWindowEnd content before after - previewWindowStart content before),
        true, fsize⟩
    else
      some ⟨path, pointer, content, false, fsize⟩

/-! # Theorems about the claims -/

/-! ## Claim C2: the years filter -/

/-- Claim C2 (code bug): the claim says a search with `years = [y]`
admits exactly the rows with `mtime` in the calendar year `y`.  The
code instead compares the epoch-second `mtime` against the decimal
concatenations `int(f"{y}0101000000")` and `int(f"{y}1231235959")`
(around `2·10^13` for 2024), so every row whose `mtime` lies in the
claimed 2024 interval — even widened by a day on both sides to cover
any local-time zone offset — is rejected. -/
theorem C2_years_filter_rejects_the_claimed_year (m : Int)
    (h1 : year2024Start - 86400 ≤ m) (h2 : m ≤ year2024End + 86400) :
    yearsFilterAdmits ["2024"] m = false := by
  have hred : yearsFilterAdmits ["2024"] m = (yearCondition 2024 m || false) := rfl
  rw [hred, Bool.or_false]
  simp only [year2024Start, year2024End] at h1 h2
  simp only [yearCondition, yearBounds]
  simp only [Bool.and_eq_false_iff, decide_eq_false_iff_not, not_le]
  omega

/-- Witness for C2 at the concrete failing input: a file modified at
2024-01-01 00:00:00 UTC is rejected by the `years = ["2024"]` filter. -/
theorem C2_years_filter_rejects_the_claimed_year_witness :
    year2024Start - 86400 ≤ year2024Start ∧
    year2024Start ≤ year2024End + 86400 ∧
    yearsFilterAdmits ["2024"] year2024Start = false :=
  ⟨by norm_num [year2024Start], by norm_num [year2024Start, year2024End],
   C2_years_filter_rejects_the_claimed_year year2024Start
     (by norm_num [year2024Start])
     (by norm_num [year2024Start, year2024End])⟩

/-! ## Claim C1: query connective -/

/-- Claim C1, counterexample: on the bare-token query `"foo bar"` the
parser of `SearchEngine.search` joins the tokens with `OR` and appends
no wildcards — not the claimed `foo* AND bar*` (which is what
`SimpleFileSearch._prepare_fts_query` produces) — and a document
containing a `foo`-match but no `bar`-match does satisfy the expression
the engine builds while failing the claimed AND-of-wildcards one. -/
theorem C1_counterexample :
    buildFtsQuery "foo bar".toList = "foo OR bar".toList ∧
    buildFtsQuery "foo bar".toList ≠ "foo* AND bar*".toList ∧
    prepareFtsQuery "foo bar".toList = "foo* AND bar*".toList ∧
    docMatchesAny ["foo".toList] (buildFtsEscapedTerms "foo bar".toList) = true ∧
    docMatchesAll ["foo".toList] ["foo*".toList, "bar*".toList] = false := by
  decide

/-! ## Claim C4: chunk boundary scan window -/

set_option maxRecDepth 100000 in
/-- Claim C4, counterexample: a 203-character text (102 `a`s, a space,
100 `b`s) chunked with `chunk_size = 202`, `chunk_overlap = 20`.  The
only boundary character sits at index 102, inside the claimed scan
window `(start + chunk_size/2, tentative end] = (101, 202]` but below
the code's extra clamp `end - 100 = 102`; the code keeps the tentative
end while the claim's scan would snap to 103, so the chunkings
differ. -/
theorem C4_counterexample :
    chunkText 202 20 (List.replicate 102 'a' ++ ' ' :: List.replicate 100 'b') ≠
    chunkTextClaim 202 20 (List.replicate 102 'a' ++ ' ' :: List.replicate 100 'b') := by
  decide

/-! ## Claim C3: completeness under full mode -/

/-- Claim C3, counterexample: an accepted file (extension `.txt` in the
allow-set, size 0 ≤ max) whose extraction yields the empty string gets
no chunk row — `_index_file` returns before writing anything when
`extract_content` produces no chunks — so a full crawl of its root
stores nothing for it (and no file row either), while the claim
promises at least one chunk row. -/
theorem C3_counterexample :
    (⟨"/r/empty.txt", 0, 100, some []⟩ : FsFile) ∈
      scanFiles ⟨[], [".txt"], 1000, 1000, 100⟩
        ⟨["/r"], [⟨"/r/empty.txt", 0, 100, some []⟩]⟩ "/r" ∧
    (indexFolder ⟨[], [".txt"], 1000, 1000, 100⟩
        ⟨["/r"], [⟨"/r/empty.txt", 0, 100, some []⟩]⟩
        ⟨[], []⟩ "/r" true) = (.ok ⟨1, 0, 0, 0⟩, ⟨[], []⟩) := by
  exact ⟨by decide, rfl⟩

/-! ## Claim C5: authorization check -/

/-- Claim C5, counterexample: with allow-list `["/data/secret"]`, the
root `"/data/secret2"` is not a path-wise descendant of (or equal to)
any allowed root, so the claim demands the authorization failure; but
`_is_allowed_root` is a plain string-prefix test
(`abs_root.startswith(...)`), accepts it, and the call proceeds to a
successful (empty) crawl. -/
theorem C5_counterexample :
    isPathDescendant "/data/secret" "/data/secret2" = false ∧
    (indexFolder ⟨["/data/secret"], [], 0, 0, 0⟩ ⟨["/data/secret2"], []⟩
      ⟨[], []⟩ "/data/secret2" true).1 = .ok ⟨0, 0, 0, 0⟩ := by
  exact ⟨by decide, rfl⟩

/-! ## Claim C8: preview -/

/-- Claim C8, counterexample: the claim says the preview fails with the
not-indexed error exactly when the file has no chunk row; but for an
indexed file (one chunk row present) queried with a pointer that names
no existing chunk, the code's lookup finds no row and the call fails
anyway. -/
theorem C8_counterexample :
    getFilePreview ⟨[⟨1, "f", 5, 0, ".txt"⟩], [⟨1, "chunk_0", "hello".toList⟩]⟩
      "f" (some "chunk_1") 100 100 = none ∧
    (previewRows ⟨[⟨1, "f", 5, 0, ".txt"⟩], [⟨1, "chunk_0", "hello".toList⟩]⟩
      "f" none).length = 1 := by
  decide

end SmartFileSearch

namespace SmartFileSearch

/-! ## Chunker lemmas -/

lemma scanBack_zero (text : List Char) (lo : Nat) : scanBack text lo 0 = none := rfl

lemma scanBack_succ (text : List Char) (lo i : Nat) :
    scanBack text lo (i + 1) =
      if i + 1 ≤ lo then none
      else if isBoundaryChar (text.getD (i + 1) 'a') then some (i + 1)
      else scanBack text lo i := rfl

lemma scanBack_bounds {text : List Char} {lo : Nat} :
    ∀ {i j : Nat}, scanBack text lo i = some j →
      lo < j ∧ j ≤ i ∧ isBoundaryChar (text.getD j 'a') = true := by
  intro i
  induction i with
  | zero => intro j h; rw [scanBack_zero] at h; cases h
  | succ i ih =>
    intro j h
    rw [scanBack_succ] at h
    split at h
    · cases h
    · split at h
      · cases h
        exact ⟨by omega, le_refl _, by assumption⟩
      · obtain ⟨h1, h2, h3⟩ := ih h
        exact ⟨h1, by omega, h3⟩

lemma scanBack_eq_some_of {text : List Char} {lo : Nat} :
    ∀ {i j : Nat}, lo < j → j ≤ i →
      isBoundaryChar (text.getD j 'a') = true →
      (∀ k, j < k → k ≤ i → isBoundaryChar (text.getD k 'a') = false) →
      scanBack text lo i = some j := by
  intro i
  induction i with
  | zero => intro j h1 h2 _ _; omega
  | succ i ih =>
    intro j h1 h2 h3 hmax
    rw [scanBack_succ]
    rw [if_neg (by omega)]
    rcases Nat.lt_or_ge j (i + 1) with hlt | hge
    · have hb : isBoundaryChar (text.getD (i + 1) 'a') = false :=
        hmax (i + 1) hlt (le_refl _)
      rw [hb]
      simp only [Bool.false_eq_true, if_false]
      exact ih h1 (by omega) h3 (fun k hk1 hk2 => hmax k hk1 (by omega))
    · have : j = i + 1 := by omega
      subst this
      rw [h3]
      simp

lemma pyStrip_length_le (l : List Char) : (pyStrip l).length ≤ l.length := by
  unfold pyStrip
  calc ((l.dropWhile isPySpace).reverse.dropWhile isPySpace).reverse.length
      = ((l.dropWhile isPySpace).reverse.dropWhile isPySpace).length :=
        List.length_reverse _
    _ ≤ (l.dropWhile isPySpace).reverse.length :=
        (List.dropWhile_sublist _).length_le
    _ = (l.dropWhile isPySpace).length := List.length_reverse _
    _ ≤ l.length := (List.dropWhile_sublist _).length_le

lemma mem_dropWhile_of_not {p : Char → Bool} :
    ∀ {l : List Char} {c : Char}, c ∈ l → p c = false → c ∈ l.dropWhile p := by
  intro l
  induction l with
  | nil => intro c hc _; cases hc
  | cons a t ih =>
    intro c hc hp
    rw [List.dropWhile_cons]
    split
    · rcases List.mem_cons.mp hc with rfl | ht
      · rw [hp] at *; simp_all
      · exact ih ht hp
    · exact hc

lemma pyStrip_ne_nil {l : List Char} (h : ∃ c ∈ l, isPySpace c = false) :
    pyStrip l ≠ [] := by
  obtain ⟨c, hc, hcs⟩ := h
  unfold pyStrip
  intro hcon
  rw [List.reverse_eq_nil_iff] at hcon
  have h1 : c ∈ l.dropWhile isPySpace := mem_dropWhile_of_not hc hcs
  have h2 : c ∈ (l.dropWhile isPySpace).reverse := List.mem_reverse.mpr h1
  have h3 : c ∈ (l.dropWhile isPySpace).reverse.dropWhile isPySpace :=
    mem_dropWhile_of_not h2 hcs
  rw [hcon] at h3
  cases h3

lemma chunkEnd_le (cs : Nat) (text : List Char) (s : Nat) :
    chunkEnd cs text s ≤ s + cs + 1 := by
  unfold chunkEnd
  split
  · split
    · next i hsc =>
        obtain ⟨h1, h2, h3⟩ := scanBack_bounds hsc
        omega
    · omega
  · omega

lemma chunkEnd_cases (cs : Nat) (text : List Char) (s : Nat) :
    chunkEnd cs text s = s + cs ∨
    (s + cs / 2 + 2 ≤ chunkEnd cs text s ∧ chunkEnd cs text s ≤ s + cs + 1) := by
  unfold chunkEnd
  split
  · split
    · next i hsc =>
        right
        obtain ⟨h1, h2, _⟩ := scanBack_bounds hsc
        have hm : s + cs / 2 ≤ max (s + cs / 2) (s + cs - 100) := le_max_left _ _
        omega
    · left; rfl
  · left; rfl

lemma chunkStep_fst_length_le (cs ov : Nat) (text : List Char) (s : Nat) :
    (chunkStep cs ov text s).1.length ≤ cs + 1 := by
  show (pyStrip ((text.drop s).take (chunkEnd cs text s - s))).length ≤ cs + 1
  have h1 := pyStrip_length_le ((text.drop s).take (chunkEnd cs text s - s))
  have h2 : ((text.drop s).take (chunkEnd cs text s - s)).length ≤
      chunkEnd cs text s - s := by
    rw [List.length_take]
    exact min_le_left _ _
  have h3 := chunkEnd_le cs text s
  omega

lemma chunkStep_snd (cs ov : Nat) (text : List Char) (s : Nat) :
    (chunkStep cs ov text s).2 = chunkEnd cs text s - ov := rfl

lemma chunkLoop_zero (cs ov : Nat) (text : List Char) (s : Nat) :
    chunkLoop cs ov text 0 s = if s ≥ text.length then some [] else none := rfl

lemma chunkLoop_succ (cs ov : Nat) (text : List Char) (fuel s : Nat) :
    chunkLoop cs ov text (fuel + 1) s =
      if s ≥ text.length then some []
      else (chunkLoop cs ov text fuel (chunkStep cs ov text s).2).map
        (fun rest => if (chunkStep cs ov text s).1.isEmpty then rest
                     else (chunkStep cs ov text s).1 :: rest) := rfl

lemma chunkLoop_mem_length (cs ov : Nat) (text : List Char) :
    ∀ (fuel s : Nat) (l : List (List Char)),
      chunkLoop cs ov text fuel s = some l → ∀ c ∈ l, c.length ≤ cs + 1 := by
  intro fuel
  induction fuel with
  | zero =>
    intro s l h c hc
    rw [chunkLoop_zero] at h
    split at h
    · cases h; cases hc
    · cases h
  | succ fuel ih =>
    intro s l h c hc
    rw [chunkLoop_succ] at h
    split at h
    · cases h; cases hc
    · rcases Option.map_eq_some'.mp h with ⟨rest, hrest, rfl⟩
      split at hc
      · exact ih _ rest hrest c hc
      · rcases List.mem_cons.mp hc with rfl | hcr
        · exact chunkStep_fst_length_le cs ov text s
        · exact ih _ rest hrest c hcr

lemma chunkStep_advance (cs ov : Nat) (text : List Char) (h : 2 * ov < cs)
    (s : Nat) :
    (chunkStep cs ov text s).2 = s + cs - ov ∨
    s + (cs / 2 - ov + 2) ≤ (chunkStep cs ov text s).2 := by
  have hov : ov ≤ cs / 2 := by omega
  rw [chunkStep_snd]
  rcases chunkEnd_cases cs text s with he | ⟨hlb, hub⟩
  · left; rw [he]
  · right; omega

lemma chunkLoop_some (cs ov : Nat) (text : List Char) (h : 2 * ov < cs) :
    ∀ (fuel s : Nat), text.length ≤ s + fuel →
      ∃ l, chunkLoop cs ov text fuel s = some l ∧ l.length ≤ fuel := by
  intro fuel
  induction fuel with
  | zero =>
    intro s hs
    refine ⟨[], ?_, le_refl _⟩
    rw [chunkLoop_zero, if_pos (by omega)]
  | succ fuel ih =>
    intro s hs
    rw [chunkLoop_succ]
    by_cases hlt : s ≥ text.length
    · rw [if_pos hlt]
      exact ⟨[], rfl, by simp⟩
    · rw [if_neg hlt]
      have hadv : s + 1 ≤ (chunkStep cs ov text s).2 := by
        rcases chunkStep_advance cs ov text h s with h1 | h2
        · omega
        · omega
      obtain ⟨rest, hrest, hlen⟩ := ih (chunkStep cs ov text s).2 (by omega)
      rw [hrest]
      refine ⟨_, rfl, ?_⟩
      split
      · simpa using by omega
      · simpa using by omega

end SmartFileSearch

namespace SmartFileSearch

/-- Claim C4, amended: the backward boundary scan runs from the
tentative end `start + chunk_size` down toward
`max(start + chunk_size/2, tentative_end - 100)` exclusive — that is,
at most 100 characters — snapping the end to one past the greatest
boundary-character index in that clamped window, and keeping the
tentative end exactly when the clamped window contains no boundary
character (not, as the claim said, the whole half-chunk window). -/
theorem C4_boundary_scan_clamped (cs : Nat) (text : List Char) (s : Nat)
    (h : s + cs < text.length) :
    ((∀ k, max (s + cs / 2) (s + cs - 100) < k → k ≤ s + cs →
        isBoundaryChar (text.getD k 'a') = false) →
      chunkEnd cs text s = s + cs) ∧
    (∀ j, max (s + cs / 2) (s + cs - 100) < j → j ≤ s + cs →
      isBoundaryChar (text.getD j 'a') = true →
      (∀ k, j < k → k ≤ s + cs → isBoundaryChar (text.getD k 'a') = false) →
      chunkEnd cs text s = j + 1) := by
  constructor
  · intro hall
    unfold chunkEnd
    rw [if_pos h]
    cases hsc : scanBack text (max (s + cs / 2) (s + cs - 100)) (s + cs) with
    | none => rfl
    | some j =>
      obtain ⟨h1, h2, h3⟩ := scanBack_bounds hsc
      rw [hall j h1 h2] at h3
      cases h3
  · intro j hj1 hj2 hj3 hmax
    unfold chunkEnd
    rw [if_pos h, scanBack_eq_some_of hj1 hj2 hj3 hmax]

/-- Witness for C4's amended theorem on `"abc de"` with
`chunk_size = 4`: the boundary space at index 3 lies in the clamped
window `(max(2, 0), 4] = (2, 4]`, nothing above it is a boundary, and
the snap puts the end at 4. -/
theorem C4_boundary_scan_clamped_witness :
    0 + 4 < ("abc de".toList).length ∧ chunkEnd 4 "abc de".toList 0 = 3 + 1 :=
  ⟨by decide,
   (C4_boundary_scan_clamped 4 "abc de".toList 0 (by decide)).2 3
     (by decide) (by decide) (by decide)
     (fun k hk1 hk2 => by
       have hk : k = 4 := by omega
       subst hk
       decide)⟩

/-- Claim C9 (confirmed): every chunk the chunker emits has length at
most `chunk_size + 1`: the single-chunk case returns the whole text of
length ≤ `chunk_size`, and otherwise the snapped end exceeds
`start + chunk_size` by at most one.  The hypothesis
`2·chunk_overlap < chunk_size` (amply satisfied by the defaults 100 and
1000) delimits the parameter region where the `Nat` model and the
Python loop coincide (Python's `start` can go negative outside it). -/
theorem C9_chunk_bounded (cs ov : Nat) (text : List Char)
    (_hfaithful : 2 * ov < cs) (chunk : List Char)
    (hm : chunk ∈ chunkText cs ov text) :
    chunk.length ≤ cs + 1 := by
  unfold chunkText at hm
  split at hm
  · rcases List.mem_singleton.mp hm with rfl
    omega
  · cases hopt : chunkLoop cs ov text (text.length + 1) 0 with
    | none => rw [hopt] at hm; cases hm
    | some l =>
      rw [hopt] at hm
      exact chunkLoop_mem_length cs ov text _ 0 l hopt chunk hm

/-- Witness for C9: the first chunk of an 8-character text split with
`chunk_size = 5`, `chunk_overlap = 1` has length 5 ≤ 6. -/
theorem C9_chunk_bounded_witness :
    2 * 1 < 5 ∧ "ab cd".toList ∈ chunkText 5 1 "ab cdefg".toList ∧
    ("ab cd".toList).length ≤ 5 + 1 :=
  ⟨by decide, by decide,
   C9_chunk_bounded 5 1 "ab cdefg".toList (by decide) "ab cd".toList (by decide)⟩

/-- Claim C10 (confirmed): under `2·chunk_overlap < chunk_size`
(satisfied by the defaults 1000/100) every loop iteration advances the
start offset — by exactly `chunk_size − chunk_overlap` in the no-snap
and final-chunk cases and by at least
`chunk_size/2 − chunk_overlap + 2` after a snap — so the loop
terminates within `len(text) + 1` iterations and emits finitely many
(at most `len(text) + 1`) chunks. -/
theorem C10_chunking_terminates (cs ov : Nat) (text : List Char)
    (h : 2 * ov < cs) :
    (∀ s, (chunkStep cs ov text s).2 = s + cs - ov ∨
       s + (cs / 2 - ov + 2) ≤ (chunkStep cs ov text s).2) ∧
    (∃ chunks, chunkLoop cs ov text (text.length + 1) 0 = some chunks ∧
       chunks.length ≤ text.length + 1) := by
  constructor
  · intro s
    rcases chunkStep_advance cs ov text h s with h1 | h2
    · left; exact h1
    · right
      have hov : ov ≤ cs / 2 := by omega
      omega
  · exact chunkLoop_some cs ov text h (text.length + 1) 0 (by omega)

/-- Witness for C10 at `chunk_size = 5`, `chunk_overlap = 2` on an
8-character text: the loop finishes with fuel 9 and at most 9 chunks. -/
theorem C10_chunking_terminates_witness :
    2 * 2 < 5 ∧
    (∃ chunks, chunkLoop 5 2 "ab cdefg".toList 9 0 = some chunks ∧
       chunks.length ≤ 9) :=
  ⟨by decide, (C10_chunking_terminates 5 2 "ab cdefg".toList (by decide)).2⟩

end SmartFileSearch

namespace SmartFileSearch

/-! ## Query parser lemmas -/

lemma pySplitAux_chars {A : Char → Prop} :
    ∀ (l acc : List Char), (∀ c ∈ l, isPySpace c = true ∨ A c) →
      (∀ c ∈ acc, A c) →
      ∀ w ∈ pySplitAux l acc, ∀ c ∈ w, A c := by
  intro l
  induction l with
  | nil =>
    intro acc hl hacc w hw c hc
    unfold pySplitAux at hw
    split at hw
    · cases hw
    · rcases List.mem_singleton.mp hw with rfl
      exact hacc c (List.mem_reverse.mp hc)
  | cons a t ih =>
    intro acc hl hacc w hw c hc
    unfold pySplitAux at hw
    split at hw
    · split at hw
      · exact ih [] (fun x hx => hl x (List.mem_cons_of_mem _ hx))
          (by intro x hx; cases hx) w hw c hc
      · rcases List.mem_cons.mp hw with rfl | hw'
        · exact hacc c (List.mem_reverse.mp hc)
        · exact ih [] (fun x hx => hl x (List.mem_cons_of_mem _ hx))
            (by intro x hx; cases hx) w hw' c hc
    · next hnsp =>
      refine ih (a :: acc) (fun x hx => hl x (List.mem_cons_of_mem _ hx)) ?_ w hw c hc
      intro x hx
      rcases List.mem_cons.mp hx with rfl | hxm
      · rcases hl x (List.mem_cons_self _ _) with hs | hA
        · exact absurd hs (by simpa using hnsp)
        · exact hA
      · exact hacc x hxm

lemma prepareTerms_chars (q : List Char) :
    ∀ w ∈ pySplit (q.map prepareCleanChar), ∀ c ∈ w,
      (isWordChar c || c = '.' || c = '-') = true := by
  refine pySplitAux_chars (A := fun c => (isWordChar c || c = '.' || c = '-') = true)
    (q.map prepareCleanChar) [] ?_ ?_
  · intro c hc
    rcases List.mem_map.mp hc with ⟨c0, _, rfl⟩
    unfold prepareCleanChar
    split
    · next hcond =>
      by_cases hsp : isPySpace c0 = true
      · exact Or.inl hsp
      · right
        simp only [Bool.or_eq_true, decide_eq_true_eq] at hcond ⊢
        tauto
    · left
      decide
  · intro c hc
    cases hc

end SmartFileSearch

namespace SmartFileSearch

/-- Claim C1, amended: it is `SimpleFileSearch._prepare_fts_query`
(simple_search.py) that joins the surviving tokens with `AND` and
appends `*` to tokens of length ≥ 3 (length-2 tokens stay bare, shorter
ones are dropped), so that a document matching its expression matches
every token — each length ≥ 3 token as a prefix, each length-2 token
exactly.  `SearchEngine._build_fts_query` (search.py) instead joins its
cleaned tokens with `OR` and appends no wildcard (see the
counterexample), so its `search("foo bar")` can return documents
matching only one token. -/
theorem C1_query_and_semantics (q : List Char) (doc : List (List Char))
    (hmatch : docMatchesAll doc (prepareTerms q) = true) :
    (∀ w ∈ pySplit (q.map prepareCleanChar), 3 ≤ w.length →
       ∃ tok ∈ doc, w.isPrefixOf tok = true) ∧
    (∀ w ∈ pySplit (q.map prepareCleanChar), w.length = 2 → w ∈ doc) := by
  rw [docMatchesAll, List.all_eq_true] at hmatch
  constructor
  · intro w hw hlen
    have hmem : (w ++ ['*']) ∈ prepareTerms q := by
      rw [prepareTerms]
      exact List.mem_filterMap.mpr ⟨w, hw, by rw [if_pos hlen]⟩
    have hht := hmatch _ hmem
    rw [docHasTerm, List.any_eq_true] at hht
    obtain ⟨tok, htok, hmt⟩ := hht
    refine ⟨tok, htok, ?_⟩
    rw [termMatches] at hmt
    rw [List.getLast?_concat] at hmt
    simp only [beq_self_eq_true, if_true] at hmt
    rwa [List.dropLast_concat] at hmt
  · intro w hw hlen
    have hmem : w ∈ prepareTerms q := by
      rw [prepareTerms]
      refine List.mem_filterMap.mpr ⟨w, hw, ?_⟩
      rw [if_neg (by omega), if_pos (by omega)]
    have hht := hmatch _ hmem
    rw [docHasTerm, List.any_eq_true] at hht
    obtain ⟨tok, htok, hmt⟩ := hht
    have hne : w ≠ [] := by intro hcon; rw [hcon] at hlen; cases hlen
    obtain ⟨c, hlast⟩ := Option.ne_none_iff_exists'.mp
      (mt List.getLast?_eq_none_iff.mp hne)
    have hcA := prepareTerms_chars q w hw c (List.mem_of_mem_getLast? hlast)
    have hcstar : c ≠ '*' := by
      intro hcon
      rw [hcon] at hcA
      exact absurd hcA (by decide)
    rw [termMatches, hlast] at hmt
    have : ((some c : Option Char) == some '*') = false := by
      simp [hcstar]
    rw [this] at hmt
    simp only [Bool.false_eq_true, if_false, beq_iff_eq] at hmt
    rw [hmt]
    exact htok

end SmartFileSearch

namespace SmartFileSearch

/-- Witness for C1's amended theorem: the query `"foo bar"` against a
document with tokens `food` and `barn` — the document matches the AND
expression and the `foo`-prefix constraint is realized. -/
theorem C1_query_and_semantics_witness :
    docMatchesAll ["food".toList, "barn".toList]
      (prepareTerms "foo bar".toList) = true ∧
    (∃ tok ∈ (["food".toList, "barn".toList] : List (List Char)),
       ("foo".toList).isPrefixOf tok = true) :=
  ⟨by decide,
   (C1_query_and_semantics "foo bar".toList ["food".toList, "barn".toList]
      (by decide)).1 "foo".toList (by decide) (by decide)⟩

end SmartFileSearch

namespace SmartFileSearch

/-! ## Preview lemmas -/

lemma getFilePreview_some (st : Store) (path : String)
    (pointer : Option String) (before after : Nat) (c : List Char) (sz : Nat)
    (hh : (previewRows st path pointer).head? = some (c, sz)) :
    getFilePreview st path pointer before after =
      if before + after < c.length then
        some ⟨path, pointer,
          (c.drop (previewWindowStart c before)).take
            (previewWindowEnd c before after - previewWindowStart c before),
          true, sz⟩
      else some ⟨path, pointer, c, false, sz⟩ := by
  unfold getFilePreview
  rw [hh]

lemma getFilePreview_eq_none_iff (st : Store) (path : String)
    (pointer : Option String) (b a : Nat) :
    getFilePreview st path pointer b a = none ↔
      previewRows st path pointer = [] := by
  cases hr : previewRows st path pointer with
  | nil =>
    constructor
    · intro _; rfl
    · intro _
      unfold getFilePreview
      rw [show (previewRows st path pointer).head? = none by rw [hr]; rfl]
  | cons x t =>
    obtain ⟨c, sz⟩ := x
    rw [getFilePreview_some st path pointer b a c sz (by rw [hr]; rfl)]
    constructor
    · intro hcon
      split at hcon <;> cases hcon
    · intro hnil
      cases hnil

/-- Claim C8, amended: the preview fails exactly when the lookup finds
no row — with a pointer, no docs row carrying that pointer joined to the
file's row; without one (the claim's "the file has no chunk row" case,
which the second conjunct characterizes), no docs row of the file at
all.  When a chunk of content `c` is found, the result is truncated with
a contiguous window of at most `before + after` characters exactly when
`len(c) > before + after`, and is the whole chunk untruncated
otherwise. -/
theorem C8_preview_window (st : Store) (path : String)
    (pointer : Option String) (before after : Nat) :
    (getFilePreview st path pointer before after = none ↔
       previewRows st path pointer = []) ∧
    (pointer = none →
      (previewRows st path pointer = [] ↔
        ∀ d ∈ st.docs, ∀ fr ∈ st.files, fr.id = d.file_id → fr.path ≠ path)) ∧
    (∀ c sz, (previewRows st path pointer).head? = some (c, sz) →
      ∃ pv, getFilePreview st path pointer before after = some pv ∧
        pv.truncated = decide (before + after < c.length) ∧
        pv.file_size = sz ∧
        (before + after < c.length →
          pv.preview.length ≤ before + after ∧
          ∃ l r, l ++ pv.preview ++ r = c) ∧
        (¬ before + after < c.length → pv.preview = c)) := by
  refine ⟨getFilePreview_eq_none_iff st path pointer before after, ?_, ?_⟩
  · intro hp
    subst hp
    unfold previewRows
    rw [List.filterMap_eq_nil_iff]
    constructor
    · intro h d hd fr hfr hid hpath
      have := h d hd
      split at this
      · next hfind =>
          have := List.find?_eq_none.mp hfind fr hfr
          simp only [Bool.and_eq_true, beq_iff_eq] at this
          exact this ⟨hid, hpath⟩
      · cases this
    · intro h d hd
      split
      · rfl
      · next f hfind =>
          have hf := List.mem_of_find?_eq_some hfind
          have hp := List.find?_some hfind
          simp only [Bool.and_eq_true, beq_iff_eq] at hp
          exact absurd hp.2 (h d hd f hf hp.1)
  · intro c sz hh
    rw [getFilePreview_some st path pointer before after c sz hh]
    by_cases hlen : before + after < c.length
    · rw [if_pos hlen]
      refine ⟨_, rfl, ?_, rfl, ?_, ?_⟩
      · simp [hlen]
      · intro _
        constructor
        · rw [List.length_take]
          have h1 : previewWindowEnd c before after ≤
              previewWindowStart c before + before + after := min_le_right _ _
          omega
        · refine ⟨c.take (previewWindowStart c before),
                  (c.drop (previewWindowStart c before)).drop
                    (previewWindowEnd c before after - previewWindowStart c before), ?_⟩
          rw [List.append_assoc, List.take_append_drop, List.take_append_drop]
      · intro hcon; exact absurd hlen hcon
    · rw [if_neg hlen]
      refine ⟨_, rfl, ?_, rfl, ?_, ?_⟩
      · simp [hlen]
      · intro hcon; exact absurd hcon hlen
      · intro _; rfl

end SmartFileSearch

namespace SmartFileSearch

/-- Witness for C8's amended theorem: a 5000-character single-chunk file
previewed with `before = after = 100` yields a truncated preview of at
most 200 characters. -/
theorem C8_preview_window_witness :
    ∃ pv, getFilePreview
        ⟨[⟨1, "big", 5000, 0, ".txt"⟩], [⟨1, "chunk_0", List.replicate 5000 'a'⟩]⟩
        "big" none 100 100 = some pv ∧
      pv.truncated = true ∧ pv.preview.length ≤ 200 := by
  obtain ⟨pv, h1, h2, h3, h4, h5⟩ :=
    (C8_preview_window
      ⟨[⟨1, "big", 5000, 0, ".txt"⟩], [⟨1, "chunk_0", List.replicate 5000 'a'⟩]⟩
      "big" none 100 100).2.2 (List.replicate 5000 'a') 5000 rfl
  refine ⟨pv, h1, ?_, ?_⟩
  · rw [h2, List.length_replicate]
    decide
  · exact (h4 (by rw [List.length_replicate]; decide)).1

end SmartFileSearch

namespace SmartFileSearch

/-! ## Store and indexer lemmas -/

lemma mem_le_foldr_max : ∀ (l : List Nat) (x : Nat), x ∈ l → x ≤ l.foldr max 0 := by
  intro l
  induction l with
  | nil => intro x hx; cases hx
  | cons a t ih =>
    intro x hx
    rcases List.mem_cons.mp hx with rfl | ht
    · exact le_max_left _ _
    · exact le_trans (ih x ht) (le_max_right _ _)

lemma upsertNewId_gt {st : Store} {path : String} {r : FileRow}
    (hr : r ∈ st.files) (hne : r.path ≠ path) : r.id < upsertNewId st path := by
  unfold upsertNewId
  have hmem : r.id ∈ ((st.files.filter (fun x => x.path != path)).map (fun x => x.id)) :=
    List.mem_map.mpr ⟨r, List.mem_filter.mpr ⟨hr, by simp [hne]⟩, rfl⟩
  have := mem_le_foldr_max _ _ hmem
  omega

lemma indexFile_eq_of_empty (cfg : Config) (st : Store) (f : FsFile)
    (h : (extractContent cfg f).isEmpty = true) : indexFile cfg st f = st := by
  unfold indexFile
  rw [if_pos h]

lemma indexFile_files (cfg : Config) (st : Store) (f : FsFile)
    (h : ¬ (extractContent cfg f).isEmpty = true) :
    (indexFile cfg st f).files =
      st.files.filter (fun r => r.path != f.path) ++
      [⟨upsertNewId st f.path, f.path, f.size, f.mtime, extOf f.path⟩] := by
  unfold indexFile
  rw [if_neg h]
  rfl

lemma indexFile_docs (cfg : Config) (st : Store) (f : FsFile)
    (h : ¬ (extractContent cfg f).isEmpty = true) :
    (indexFile cfg st f).docs =
      st.docs.filter (fun d => d.file_id != upsertNewId st f.path) ++
      (extractContent cfg f).enum.map
        (fun p => ⟨upsertNewId st f.path, "chunk_" ++ toString p.1, p.2⟩) := by
  unfold indexFile
  rw [if_neg h]
  rfl

lemma indexFile_WF (cfg : Config) (st : Store) (f : FsFile) (hwf : Store.WF st) :
    Store.WF (indexFile cfg st f) := by
  by_cases h : (extractContent cfg f).isEmpty = true
  · rw [indexFile_eq_of_empty cfg st f h]; exact hwf
  · obtain ⟨hp, hi⟩ := hwf
    constructor
    · rw [indexFile_files cfg st f h, List.map_append, List.nodup_append]
      refine ⟨((List.filter_sublist _).map _).nodup hp, by simp, ?_⟩
      intro x hx
      rcases List.mem_map.mp hx with ⟨r, hr, rfl⟩
      have := (List.mem_filter.mp hr).2
      simp only [bne_iff_ne, ne_eq] at this
      simp only [List.map_cons, List.map_nil, List.mem_singleton]
      exact this
    · rw [indexFile_files cfg st f h, List.map_append, List.nodup_append]
      refine ⟨((List.filter_sublist _).map _).nodup hi, by simp, ?_⟩
      intro x hx
      rcases List.mem_map.mp hx with ⟨r, hr, rfl⟩
      obtain ⟨hrmem, hrne⟩ := List.mem_filter.mp hr
      simp only [bne_iff_ne, ne_eq] at hrne
      have := upsertNewId_gt hrmem hrne
      simp only [List.map_cons, List.map_nil, List.mem_singleton]
      omega

lemma indexFile_filter_path (cfg : Config) (st : Store) (f : FsFile)
    {p : String} (hne : f.path ≠ p) :
    (indexFile cfg st f).files.filter (fun r => r.path == p) =
      st.files.filter (fun r => r.path == p) := by
  by_cases h : (extractContent cfg f).isEmpty = true
  · rw [indexFile_eq_of_empty cfg st f h]
  · rw [indexFile_files cfg st f h, List.filter_append, List.filter_filter]
    have h1 : (List.filter (fun r => r.path == p)
        [(⟨upsertNewId st f.path, f.path, f.size, f.mtime, extOf f.path⟩ : FileRow)]) = [] := by
      simp [hne]
    rw [h1, List.append_nil]
    apply List.filter_congr
    intro r _
    by_cases hrp : r.path = p
    · have : r.path ≠ f.path := by rw [hrp]; exact fun hc => hne hc.symm
      simp only [hrp, this, beq_self_eq_true, Bool.true_and, bne_iff_ne, ne_eq,
        decide_not]
      simp [Ne.symm hne]
    · simp [hrp]

end SmartFileSearch

namespace SmartFileSearch

lemma filter_key_singleton {α β : Type} [BEq β] [LawfulBEq β] (f : α → β) :
    ∀ (l : List α) (a : α), (l.map f).Nodup → a ∈ l →
      l.filter (fun x => f x == f a) = [a] := by
  intro l
  induction l with
  | nil => intro a _ ha; cases ha
  | cons b t ih =>
    intro a hnd ha
    rw [List.map_cons, List.nodup_cons] at hnd
    obtain ⟨hnotin, hndt⟩ := hnd
    rcases List.mem_cons.mp ha with rfl | hat
    · rw [List.filter_cons]
      simp only [beq_self_eq_true, if_true]
      have ht : t.filter (fun x => f x == f a) = [] := by
        rw [List.filter_eq_nil_iff]
        intro x hx hcon
        exact hnotin (List.mem_map.mpr ⟨x, hx, (eq_of_beq hcon).symm ▸ rfl⟩)
      rw [ht]
    · rw [List.filter_cons]
      have hb : (f b == f a) = false := by
        rw [beq_eq_false_iff_ne]
        intro hcon
        exact hnotin (hcon ▸ List.mem_map.mpr ⟨a, hat, rfl⟩)
      rw [hb]
      simp only [Bool.false_eq_true, if_false]
      exact ih a hndt hat

lemma find?_of_filter_singleton {α : Type} {p : α → Bool} {l : List α} {r : α}
    (h : l.filter p = [r]) : l.find? p = some r := by
  cases hf : l.find? p with
  | none =>
    have hall := List.find?_eq_none.mp hf
    have : l.filter p = [] := List.filter_eq_nil_iff.mpr hall
    rw [this] at h
    cases h
  | some x =>
    have hx1 := List.mem_of_find?_eq_some hf
    have hx2 := List.find?_some hf
    have hmem : x ∈ l.filter p := List.mem_filter.mpr ⟨hx1, hx2⟩
    rw [h, List.mem_singleton] at hmem
    rw [hmem]

lemma removeFileFromIndex_mono (s : Store) (q : String) :
    (∀ fr ∈ (removeFileFromIndex s q).files, fr ∈ s.files) ∧
    (∀ d ∈ (removeFileFromIndex s q).docs, d ∈ s.docs) := by
  unfold removeFileFromIndex
  split
  · exact ⟨fun fr hfr => hfr, fun d hd => hd⟩
  · exact ⟨fun fr hfr => (List.mem_filter.mp hfr).1,
           fun d hd => (List.mem_filter.mp hd).1⟩

lemma removeFileFromIndex_WF (s : Store) (q : String) (hwf : Store.WF s) :
    Store.WF (removeFileFromIndex s q) := by
  obtain ⟨hp, hi⟩ := hwf
  unfold removeFileFromIndex
  split
  · exact ⟨hp, hi⟩
  · exact ⟨hp.sublist ((List.filter_sublist _).map _),
           hi.sublist ((List.filter_sublist _).map _)⟩

lemma foldl_remove_mono : ∀ (ps : List String) (s : Store),
    (∀ fr ∈ (ps.foldl removeFileFromIndex s).files, fr ∈ s.files) ∧
    (∀ d ∈ (ps.foldl removeFileFromIndex s).docs, d ∈ s.docs) := by
  intro ps
  induction ps with
  | nil => exact fun s => ⟨fun fr h => h, fun d h => h⟩
  | cons q t ih =>
    intro s
    rw [List.foldl_cons]
    obtain ⟨h1, h2⟩ := ih (removeFileFromIndex s q)
    obtain ⟨g1, g2⟩ := removeFileFromIndex_mono s q
    exact ⟨fun fr h => g1 fr (h1 fr h), fun d h => g2 d (h2 d h)⟩

lemma foldl_remove_WF : ∀ (ps : List String) (s : Store), Store.WF s →
    Store.WF (ps.foldl removeFileFromIndex s) := by
  intro ps
  induction ps with
  | nil => exact fun s h => h
  | cons q t ih =>
    intro s hwf
    rw [List.foldl_cons]
    exact ih _ (removeFileFromIndex_WF s q hwf)

end SmartFileSearch

namespace SmartFileSearch

lemma store_filter_path_singleton {s : Store} (hwf : Store.WF s) {r : FileRow}
    (hr : r ∈ s.files) :
    s.files.filter (fun x => x.path == r.path) = [r] := by
  have := filter_key_singleton (fun x : FileRow => x.path) s.files r hwf.1 hr
  exact this

lemma foldl_remove_gone :
    ∀ (ps : List String) (s : Store) (r : FileRow), Store.WF s →
      r ∈ s.files → r.path ∈ ps →
      (∀ fr ∈ (ps.foldl removeFileFromIndex s).files, fr.path ≠ r.path) ∧
      (∀ d ∈ (ps.foldl removeFileFromIndex s).docs, d.file_id ≠ r.id) := by
  intro ps
  induction ps with
  | nil => intro s r _ _ hmem; cases hmem
  | cons q t ih =>
    intro s r hwf hr hmem
    rw [List.foldl_cons]
    by_cases hq : q = r.path
    · subst hq
      have hsing := store_filter_path_singleton hwf hr
      have hfind : s.files.find? (fun x => x.path == r.path) = some r :=
        find?_of_filter_singleton hsing
      have hrm : removeFileFromIndex s r.path =
          ⟨s.files.filter (fun x => x.id != r.id),
           s.docs.filter (fun d => d.file_id != r.id)⟩ := by
        unfold removeFileFromIndex
        rw [hfind]
      rw [hrm]
      obtain ⟨hm1, hm2⟩ := foldl_remove_mono t
        ⟨s.files.filter (fun x => x.id != r.id), s.docs.filter (fun d => d.file_id != r.id)⟩
      constructor
      · intro fr hfr hcon
        have hfr' := hm1 fr hfr
        have hfrs : fr ∈ s.files := (List.mem_filter.mp hfr').1
        have hfrid : (fr.id != r.id) = true := (List.mem_filter.mp hfr').2
        have : fr ∈ s.files.filter (fun x => x.path == r.path) :=
          List.mem_filter.mpr ⟨hfrs, by simp [hcon]⟩
        rw [hsing, List.mem_singleton] at this
        rw [this] at hfrid
        simp at hfrid
      · intro d hd
        have hd' := hm2 d hd
        have := (List.mem_filter.mp hd').2
        simpa using this
    · have hwf' := removeFileFromIndex_WF s q hwf
      have hr' : r ∈ (removeFileFromIndex s q).files := by
        unfold removeFileFromIndex
        split
        · exact hr
        · next row hfind =>
            have hrowmem := List.mem_of_find?_eq_some hfind
            have hrowp := List.find?_some hfind
            rw [beq_iff_eq] at hrowp
            refine List.mem_filter.mpr ⟨hr, ?_⟩
            simp only [bne_iff_ne, ne_eq, decide_not]
            have hrne : r ≠ row := by
              intro hcon
              rw [hcon] at hq
              exact hq hrowp.symm
            have := List.inj_on_of_nodup_map hwf.2 hr hrowmem
            simp only [bne_iff_ne, ne_eq]
            intro hcon
            exact hrne (this hcon)
      have hmem' : r.path ∈ t := by
        rcases List.mem_cons.mp hmem with hc | h
        · exact absurd hc.symm hq
        · exact h
      exact ih (removeFileFromIndex s q) r hwf' hr' hmem'

end SmartFileSearch

namespace SmartFileSearch

lemma crawlStep_fst (cfg : Config) (full : Bool) (ex : List FileRow)
    (acc : Store × Nat × Nat) (f : FsFile) :
    (crawlStep cfg full ex acc f).1 =
      if shouldIndexFile full ex f then indexFile cfg acc.1 f else acc.1 := by
  unfold crawlStep
  split <;> rfl

lemma crawlFold_counts (cfg : Config) (full : Bool) (ex : List FileRow) :
    ∀ (scanned : List FsFile) (acc : Store × Nat × Nat),
      (scanned.foldl (crawlStep cfg full ex) acc).2.1 =
        acc.2.1 + (scanned.filter (fun f => shouldIndexFile full ex f)).length ∧
      (scanned.foldl (crawlStep cfg full ex) acc).2.2 =
        acc.2.2 + (scanned.filter (fun f => !(shouldIndexFile full ex f))).length := by
  intro scanned
  induction scanned with
  | nil => intro acc; simp
  | cons f t ih =>
    intro acc
    rw [List.foldl_cons, List.filter_cons, List.filter_cons]
    obtain ⟨ih1, ih2⟩ := ih (crawlStep cfg full ex acc f)
    by_cases hf : shouldIndexFile full ex f = true
    · have hstep : (crawlStep cfg full ex acc f).2.1 = acc.2.1 + 1 ∧
          (crawlStep cfg full ex acc f).2.2 = acc.2.2 := by
        unfold crawlStep
        rw [if_pos hf]
        exact ⟨rfl, rfl⟩
      rw [ih1, ih2, hstep.1, hstep.2]
      simp [hf]
      omega
    · have hstep : (crawlStep cfg full ex acc f).2.1 = acc.2.1 ∧
          (crawlStep cfg full ex acc f).2.2 = acc.2.2 + 1 := by
        unfold crawlStep
        rw [if_neg hf]
        exact ⟨rfl, rfl⟩
      rw [ih1, ih2, hstep.1, hstep.2]
      simp [hf]
      omega

lemma crawlFold_WF (cfg : Config) (full : Bool) (ex : List FileRow) :
    ∀ (scanned : List FsFile) (acc : Store × Nat × Nat), Store.WF acc.1 →
      Store.WF ((scanned.foldl (crawlStep cfg full ex) acc).1) := by
  intro scanned
  induction scanned with
  | nil => intro acc h; exact h
  | cons f t ih =>
    intro acc hwf
    rw [List.foldl_cons]
    refine ih (crawlStep cfg full ex acc f) ?_
    rw [crawlStep_fst]
    split
    · exact indexFile_WF cfg acc.1 f hwf
    · exact hwf

lemma crawlFold_filter_path (cfg : Config) (full : Bool) (ex : List FileRow)
    {p : String} :
    ∀ (scanned : List FsFile) (acc : Store × Nat × Nat),
      (∀ f ∈ scanned, f.path ≠ p) →
      ((scanned.foldl (crawlStep cfg full ex) acc).1).files.filter
          (fun r => r.path == p) =
        acc.1.files.filter (fun r => r.path == p) := by
  intro scanned
  induction scanned with
  | nil => intro acc _; rfl
  | cons f t ih =>
    intro acc hne
    rw [List.foldl_cons]
    rw [ih (crawlStep cfg full ex acc f) (fun g hg => hne g (List.mem_cons_of_mem _ hg))]
    rw [crawlStep_fst]
    split
    · exact indexFile_filter_path cfg acc.1 f (hne f (List.mem_cons_self _ _))
    · rfl

lemma indexFile_establishes (cfg : Config) (st : Store) (f : FsFile)
    (hne : ¬ (extractContent cfg f).isEmpty = true) :
    ∃ fr ∈ (indexFile cfg st f).files, fr.path = f.path ∧
      ∃ d ∈ (indexFile cfg st f).docs, d.file_id = fr.id := by
  refine ⟨⟨upsertNewId st f.path, f.path, f.size, f.mtime, extOf f.path⟩, ?_, rfl, ?_⟩
  · rw [indexFile_files cfg st f hne]
    exact List.mem_append_right _ (List.mem_singleton.mpr rfl)
  · cases hch : extractContent cfg f with
    | nil => rw [hch] at hne; simp at hne
    | cons c t =>
      refine ⟨⟨upsertNewId st f.path, "chunk_" ++ toString 0, c⟩, ?_, rfl⟩
      rw [indexFile_docs cfg st f hne, hch]
      refine List.mem_append_right _ ?_
      rw [List.enum_cons]
      exact List.mem_cons_self _ _

lemma crawlStep_keepQ (cfg : Config) (full : Bool) (ex : List FileRow)
    (acc : Store × Nat × Nat) (g : FsFile) {p : String} (hne : g.path ≠ p)
    (hq : ∃ fr ∈ acc.1.files, fr.path = p ∧ ∃ d ∈ acc.1.docs, d.file_id = fr.id) :
    ∃ fr ∈ (crawlStep cfg full ex acc g).1.files, fr.path = p ∧
      ∃ d ∈ (crawlStep cfg full ex acc g).1.docs, d.file_id = fr.id := by
  obtain ⟨fr, hfr, hfrp, d, hd, hdid⟩ := hq
  rw [crawlStep_fst]
  split
  · by_cases hemp : (extractContent cfg g).isEmpty = true
    · rw [indexFile_eq_of_empty cfg acc.1 g hemp]
      exact ⟨fr, hfr, hfrp, d, hd, hdid⟩
    · have hfrne : fr.path ≠ g.path := by rw [hfrp]; exact fun hc => hne hc.symm
      have hlt := upsertNewId_gt hfr hfrne
      refine ⟨fr, ?_, hfrp, d, ?_, hdid⟩
      · rw [indexFile_files cfg acc.1 g hemp]
        refine List.mem_append_left _ ?_
        refine List.mem_filter.mpr ⟨hfr, ?_⟩
        simp [hfrne]
      · rw [indexFile_docs cfg acc.1 g hemp]
        refine List.mem_append_left _ ?_
        refine List.mem_filter.mpr ⟨hd, ?_⟩
        have hne2 : d.file_id ≠ upsertNewId acc.1 g.path := by
          rw [hdid]; omega
        simp [hne2]
  · exact ⟨fr, hfr, hfrp, d, hd, hdid⟩

lemma crawlFold_keepQ (cfg : Config) (full : Bool) (ex : List FileRow)
    {p : String} :
    ∀ (scanned : List FsFile) (acc : Store × Nat × Nat),
      (∀ g ∈ scanned, g.path ≠ p) →
      (∃ fr ∈ acc.1.files, fr.path = p ∧ ∃ d ∈ acc.1.docs, d.file_id = fr.id) →
      ∃ fr ∈ ((scanned.foldl (crawlStep cfg full ex) acc).1).files, fr.path = p ∧
        ∃ d ∈ ((scanned.foldl (crawlStep cfg full ex) acc).1).docs,
          d.file_id = fr.id := by
  intro scanned
  induction scanned with
  | nil => intro acc _ h; exact h
  | cons g t ih =>
    intro acc hne hq
    rw [List.foldl_cons]
    exact ih (crawlStep cfg full ex acc g)
      (fun x hx => hne x (List.mem_cons_of_mem _ hx))
      (crawlStep_keepQ cfg full ex acc g (hne g (List.mem_cons_self _ _)) hq)

end SmartFileSearch

namespace SmartFileSearch

lemma crawlFold_indexed_file (cfg : Config) (ex : List FileRow) :
    ∀ (scanned : List FsFile) (acc : Store × Nat × Nat) (f : FsFile),
      f ∈ scanned → (scanned.map (fun g => g.path)).Nodup →
      ¬ (extractContent cfg f).isEmpty = true →
      ∃ fr ∈ ((scanned.foldl (crawlStep cfg true ex) acc).1).files,
        fr.path = f.path ∧
        ∃ d ∈ ((scanned.foldl (crawlStep cfg true ex) acc).1).docs,
          d.file_id = fr.id := by
  intro scanned
  induction scanned with
  | nil => intro acc f hf; cases hf
  | cons g t ih =>
    intro acc f hf hnd hne
    rw [List.map_cons, List.nodup_cons] at hnd
    obtain ⟨hgp, hndt⟩ := hnd
    rw [List.foldl_cons]
    rcases List.mem_cons.mp hf with rfl | hft
    · have hstep : (crawlStep cfg true ex acc f).1 = indexFile cfg acc.1 f := by
        rw [crawlStep_fst]
        have htrue : shouldIndexFile true ex f = true := rfl
        rw [if_pos htrue]
      refine crawlFold_keepQ cfg true ex t (crawlStep cfg true ex acc f) ?_ ?_
      · intro x hx hcon
        exact hgp (hcon ▸ List.mem_map.mpr ⟨x, hx, rfl⟩)
      · rw [hstep]
        exact indexFile_establishes cfg acc.1 f hne
    · exact ih (crawlStep cfg true ex acc g) f hft hndt hne

lemma removeFold_keepQ {p : String} :
    ∀ (ps : List String) (s : Store), Store.WF s → (∀ q ∈ ps, q ≠ p) →
      (∃ fr ∈ s.files, fr.path = p ∧ ∃ d ∈ s.docs, d.file_id = fr.id) →
      ∃ fr ∈ (ps.foldl removeFileFromIndex s).files, fr.path = p ∧
        ∃ d ∈ (ps.foldl removeFileFromIndex s).docs, d.file_id = fr.id := by
  intro ps
  induction ps with
  | nil => intro s _ _ h; exact h
  | cons q t ih =>
    intro s hwf hne hq
    rw [List.foldl_cons]
    refine ih (removeFileFromIndex s q) (removeFileFromIndex_WF s q hwf)
      (fun x hx => hne x (List.mem_cons_of_mem _ hx)) ?_
    obtain ⟨fr, hfr, hfrp, d, hd, hdid⟩ := hq
    have hqp : q ≠ p := hne q (List.mem_cons_self _ _)
    unfold removeFileFromIndex
    split
    · exact ⟨fr, hfr, hfrp, d, hd, hdid⟩
    · next row hfind =>
        have hrowmem := List.mem_of_find?_eq_some hfind
        have hrowp := List.find?_some hfind
        rw [beq_iff_eq] at hrowp
        have hfrrow : fr ≠ row := by
          intro hcon
          rw [← hcon, hfrp] at hrowp
          exact hqp hrowp.symm
        have hidne : fr.id ≠ row.id := by
          intro hcon
          exact hfrrow (List.inj_on_of_nodup_map hwf.2 hfr hrowmem hcon)
        refine ⟨fr, ?_, hfrp, d, ?_, hdid⟩
        · refine List.mem_filter.mpr ⟨hfr, ?_⟩
          simp [hidne]
        · refine List.mem_filter.mpr ⟨hd, ?_⟩
          have : d.file_id ≠ row.id := by rw [hdid]; exact hidne
          simp [this]

end SmartFileSearch

namespace SmartFileSearch

lemma chunkStep_advance_one (cs ov : Nat) (text : List Char) (h : 2 * ov < cs)
    (s : Nat) : s + 1 ≤ (chunkStep cs ov text s).2 := by
  rcases chunkStep_advance cs ov text h s with h1 | h2
  · omega
  · have : ov ≤ cs / 2 := by omega
    omega

lemma slice_contains (text : List Char) (s e j : Nat) (h1 : s ≤ j) (h2 : j < e)
    (h3 : j < text.length) :
    text.getD j 'a' ∈ (text.drop s).take (e - s) := by
  have hlen : j - s < ((text.drop s).take (e - s)).length := by
    rw [List.length_take, List.length_drop]
    omega
  have hlend : j - s < (text.drop s).length := by
    rw [List.length_drop]
    omega
  have heq : ((text.drop s).take (e - s)).get ⟨j - s, hlen⟩ = text.getD j 'a' := by
    rw [List.get_eq_getElem]
    simp only [Fin.val_mk]
    rw [List.getElem_take]
    rw [List.getElem_drop]
    rw [List.getD_eq_getElem text 'a' h3]
    congr 1
    omega
  rw [← heq]
  exact List.get_mem _ _ _
  -- the index computation: element of the slice at j - s is text[j]

lemma chunkLoop_ne_nil (cs ov : Nat) (text : List Char) (h : 2 * ov < cs) :
    ∀ (fuel s : Nat), text.length ≤ s + fuel →
      (∃ j, s ≤ j ∧ j < text.length ∧ isPySpace (text.getD j 'a') = false) →
      ∃ l, chunkLoop cs ov text fuel s = some l ∧ l ≠ [] := by
  intro fuel
  induction fuel with
  | zero =>
    intro s hs hj
    obtain ⟨j, hj1, hj2, _⟩ := hj
    omega
  | succ fuel ih =>
    intro s hs hj
    obtain ⟨j, hj1, hj2, hjc⟩ := hj
    rw [chunkLoop_succ, if_neg (by omega)]
    have hadv := chunkStep_advance_one cs ov text h s
    by_cases hje : j < chunkEnd cs text s
    · have hmem : text.getD j 'a' ∈ (text.drop s).take (chunkEnd cs text s - s) :=
        slice_contains text s _ j hj1 hje hj2
      have hstrip : (chunkStep cs ov text s).1 ≠ [] := by
        show pyStrip _ ≠ []
        exact pyStrip_ne_nil ⟨_, hmem, hjc⟩
      obtain ⟨rest, hrest, _⟩ :=
        chunkLoop_some cs ov text h fuel (chunkStep cs ov text s).2 (by omega)
      rw [hrest]
      refine ⟨_, rfl, ?_⟩
      have hemp : (chunkStep cs ov text s).1.isEmpty = false := by
        cases hb : (chunkStep cs ov text s).1.isEmpty
        · rfl
        · exact absurd (List.isEmpty_iff.mp hb) hstrip
      rw [hemp]
      simp
    · have hs2j : (chunkStep cs ov text s).2 ≤ j := by
        rw [chunkStep_snd]
        have := chunkEnd_le cs text s
        omega
      obtain ⟨l, hl, hlne⟩ := ih (chunkStep cs ov text s).2 (by omega)
        ⟨j, hs2j, hj2, hjc⟩
      rw [hl]
      refine ⟨_, rfl, ?_⟩
      split
      · exact hlne
      · simp

lemma chunkText_ne_nil (cs ov : Nat) (text : List Char) (h : 2 * ov < cs)
    (hchar : ∃ c ∈ text, isPySpace c = false) :
    chunkText cs ov text ≠ [] := by
  unfold chunkText
  split
  · simp
  · obtain ⟨c, hc, hcs⟩ := hchar
    obtain ⟨j, hj, hjc⟩ := List.mem_iff_getElem.mp hc
    have hgd : isPySpace (text.getD j 'a') = false := by
      rw [List.getD_eq_getElem text 'a' hj, hjc]
      exact hcs
    obtain ⟨l, hl, hlne⟩ := chunkLoop_ne_nil cs ov text h (text.length + 1) 0
      (by omega) ⟨j, Nat.zero_le _, hj, hgd⟩
    rw [hl]
    simpa using hlne

end SmartFileSearch

namespace SmartFileSearch

lemma indexFolder_notAuthorized (cfg : Config) (fs : Filesystem) (st : Store)
    (root : String) (full : Bool) (hauth : isAllowedRoot cfg root = false) :
    indexFolder cfg fs st root full = (.error "NotAuthorized", st) := by
  unfold indexFolder
  rw [hauth]
  rfl

lemma indexFolder_rootMissing (cfg : Config) (fs : Filesystem) (st : Store)
    (root : String) (full : Bool) (hauth : isAllowedRoot cfg root = true)
    (hex : fs.dirs.contains root = false) :
    indexFolder cfg fs st root full = (.error "RootMissing", st) := by
  unfold indexFolder
  rw [hauth, hex]
  rfl

lemma indexFolder_ok (cfg : Config) (fs : Filesystem) (st : Store)
    (root : String) (full : Bool) (hauth : isAllowedRoot cfg root = true)
    (hex : fs.dirs.contains root = true) :
    indexFolder cfg fs st root full =
      (.ok ⟨(crawlLoop cfg full (getExistingFiles st root) (scanFiles cfg fs root) st).2.1,
            (crawlLoop cfg full (getExistingFiles st root) (scanFiles cfg fs root) st).2.2,
            (removedPathsOf st root (scanFiles cfg fs root)).length, 0⟩,
       (removedPathsOf st root (scanFiles cfg fs root)).foldl removeFileFromIndex
         (crawlLoop cfg full (getExistingFiles st root) (scanFiles cfg fs root) st).1) := by
  unfold indexFolder
  rw [hauth, hex]
  rfl

lemma isAllowedRoot_false_iff (cfg : Config) (root : String) :
    isAllowedRoot cfg root = false ↔
      (cfg.allowedRoots ≠ [] ∧
       ∀ a ∈ cfg.allowedRoots, a.toList.isPrefixOf root.toList = false) := by
  unfold isAllowedRoot
  rw [Bool.or_eq_false_iff]
  constructor
  · intro hb
    obtain ⟨h1, h2⟩ := hb
    constructor
    · intro hcon
      rw [hcon] at h1
      cases h1
    · intro a ha
      cases hpf : a.toList.isPrefixOf root.toList
      · rfl
      · have : cfg.allowedRoots.any (fun a => a.toList.isPrefixOf root.toList) = true :=
          List.any_eq_true.mpr ⟨a, ha, hpf⟩
        rw [this] at h2
        cases h2
  · intro hr
    obtain ⟨h1, h2⟩ := hr
    constructor
    · cases hemp : cfg.allowedRoots.isEmpty
      · rfl
      · exact absurd (List.isEmpty_iff.mp hemp) h1
    · cases hany : cfg.allowedRoots.any (fun a => a.toList.isPrefixOf root.toList)
      · rfl
      · obtain ⟨a, ha, hpf⟩ := List.any_eq_true.mp hany
        rw [h2 a ha] at hpf
        cases hpf

/-- Claim C5, amended: `index_root` fails with the authorization error
iff the allow-list is non-empty and the root is not a *string-prefix*
extension of any allowed entry (`abs_root.startswith(...)`), so sibling
paths sharing a prefix — e.g. `/data/secret2` under allowed
`/data/secret` — are accepted, contrary to the claim's path-wise
descendant reading (see the counterexample); on any fatal error the
store is unchanged; an empty allow-list accepts every root. -/
theorem C5_authorization (cfg : Config) (fs : Filesystem) (st : Store)
    (root : String) (full : Bool) :
    ((indexFolder cfg fs st root full).1 = .error "NotAuthorized" ↔
      (cfg.allowedRoots ≠ [] ∧
       ∀ a ∈ cfg.allowedRoots, a.toList.isPrefixOf root.toList = false)) ∧
    (∀ e, (indexFolder cfg fs st root full).1 = .error e →
      (indexFolder cfg fs st root full).2 = st) ∧
    (cfg.allowedRoots = [] →
      (indexFolder cfg fs st root full).1 ≠ .error "NotAuthorized") := by
  have hchar := isAllowedRoot_false_iff cfg root
  cases hauth : isAllowedRoot cfg root
  · rw [indexFolder_notAuthorized cfg fs st root full hauth]
    refine ⟨⟨fun _ => hchar.mp hauth, fun _ => rfl⟩, fun e _ => rfl, ?_⟩
    intro hemp
    have := hchar.mp hauth
    exact absurd hemp this.1
  · have hnot : ¬ (cfg.allowedRoots ≠ [] ∧
        ∀ a ∈ cfg.allowedRoots, a.toList.isPrefixOf root.toList = false) := by
      intro hcon
      rw [hchar.mpr hcon] at hauth
      cases hauth
    cases hex : fs.dirs.contains root
    · rw [indexFolder_rootMissing cfg fs st root full hauth hex]
      refine ⟨⟨fun hcon => ?_, fun hcon => absurd hcon hnot⟩, fun e _ => rfl, ?_⟩
      · rw [Except.error.injEq] at hcon
        exact absurd hcon (by decide)
      · intro _ hcon
        rw [Except.error.injEq] at hcon
        exact absurd hcon (by decide)
    · rw [indexFolder_ok cfg fs st root full hauth hex]
      refine ⟨⟨fun hcon => ?_, fun hcon => absurd hcon hnot⟩, fun e hcon => ?_, ?_⟩
      · cases hcon
      · cases hcon
      · intro _ hcon
        cases hcon

/-- Witness for C5's amended theorem: allow-list `["/a"]`, root `"/b"`
— authorization fails and the store is unchanged. -/
theorem C5_authorization_witness :
    (indexFolder ⟨["/a"], [], 0, 0, 0⟩ ⟨[], []⟩ ⟨[], []⟩ "/b" true).1 =
      .error "NotAuthorized" ∧
    (indexFolder ⟨["/a"], [], 0, 0, 0⟩ ⟨[], []⟩ ⟨[], []⟩ "/b" true).2 = ⟨[], []⟩ :=
  ⟨(C5_authorization ⟨["/a"], [], 0, 0, 0⟩ ⟨[], []⟩ ⟨[], []⟩ "/b" true).1.mpr
     ⟨by decide, by decide⟩,
   (C5_authorization ⟨["/a"], [], 0, 0, 0⟩ ⟨[], []⟩ ⟨[], []⟩ "/b" true).2.1
     "NotAuthorized"
     ((C5_authorization ⟨["/a"], [], 0, 0, 0⟩ ⟨[], []⟩ ⟨[], []⟩ "/b" true).1.mpr
       ⟨by decide, by decide⟩)⟩

end SmartFileSearch

namespace SmartFileSearch

lemma shouldIndexFile_eq_false_iff (full : Bool) (ex : List FileRow) (f : FsFile) :
    shouldIndexFile full ex f = false ↔
      (full = false ∧
       lookupSnapshot ex f.path = some (f.size, f.mtime)) := by
  unfold shouldIndexFile
  cases full with
  | true => simp
  | false =>
    simp only [Bool.false_eq_true, if_false, true_and]
    cases hls : lookupSnapshot ex f.path with
    | none => simp
    | some pr =>
      obtain ⟨sz, mt⟩ := pr
      simp only [Bool.not_eq_false', Bool.and_eq_true, beq_iff_eq,
        Option.some.injEq, Prod.mk.injEq]

/-- Claim C7 (confirmed): the crawl's `indexed` and `skipped` counters
partition the scanned files by `_should_index_file`; a file is skipped
iff the mode is incremental, its path is in the pre-crawl snapshot and
its current `(size, mtime)` equals the snapshot pair — any difference or
absence forces re-indexing; in full mode nothing is skipped. -/
theorem C7_change_decision (cfg : Config) (fs : Filesystem) (st : Store)
    (root : String) (full : Bool) (stats : IndexStats) (st' : Store)
    (hrun : indexFolder cfg fs st root full = (.ok stats, st')) :
    stats.indexed = ((scanFiles cfg fs root).filter
      (fun f => shouldIndexFile full (getExistingFiles st root) f)).length ∧
    stats.skipped = ((scanFiles cfg fs root).filter
      (fun f => !(shouldIndexFile full (getExistingFiles st root) f))).length ∧
    (∀ f : FsFile, shouldIndexFile full (getExistingFiles st root) f = false ↔
      (full = false ∧
       lookupSnapshot (getExistingFiles st root) f.path =
         some (f.size, f.mtime))) ∧
    (full = true → stats.skipped = 0 ∧
      stats.indexed = (scanFiles cfg fs root).length) := by
  cases hauth : isAllowedRoot cfg root
  · rw [indexFolder_notAuthorized cfg fs st root full hauth] at hrun
    simp at hrun
  · cases hex : fs.dirs.contains root
    · rw [indexFolder_rootMissing cfg fs st root full hauth hex] at hrun
      simp at hrun
    · rw [indexFolder_ok cfg fs st root full hauth hex] at hrun
      rw [Prod.mk.injEq, Except.ok.injEq] at hrun
      obtain ⟨hstats, hst⟩ := hrun
      subst hstats
      obtain ⟨hc1, hc2⟩ := crawlFold_counts cfg full (getExistingFiles st root)
        (scanFiles cfg fs root) (st, 0, 0)
      refine ⟨?_, ?_, fun f => shouldIndexFile_eq_false_iff full _ f, ?_⟩
      · show (crawlLoop cfg full (getExistingFiles st root) (scanFiles cfg fs root) st).2.1 = _
        rw [show crawlLoop cfg full (getExistingFiles st root) (scanFiles cfg fs root) st
            = (scanFiles cfg fs root).foldl
                (crawlStep cfg full (getExistingFiles st root)) (st, 0, 0) from rfl]
        rw [hc1]
        simp
      · show (crawlLoop cfg full (getExistingFiles st root) (scanFiles cfg fs root) st).2.2 = _
        rw [show crawlLoop cfg full (getExistingFiles st root) (scanFiles cfg fs root) st
            = (scanFiles cfg fs root).foldl
                (crawlStep cfg full (getExistingFiles st root)) (st, 0, 0) from rfl]
        rw [hc2]
        simp
      · intro hfull
        subst hfull
        have hall : ∀ f ∈ scanFiles cfg fs root,
            shouldIndexFile true (getExistingFiles st root) f = true :=
          fun f _ => rfl
        constructor
        · show (crawlLoop cfg true (getExistingFiles st root) (scanFiles cfg fs root) st).2.2 = 0
          rw [show crawlLoop cfg true (getExistingFiles st root) (scanFiles cfg fs root) st
              = (scanFiles cfg fs root).foldl
                  (crawlStep cfg true (getExistingFiles st root)) (st, 0, 0) from rfl]
          rw [(crawlFold_counts cfg true (getExistingFiles st root)
            (scanFiles cfg fs root) (st, 0, 0)).2]
          have : (scanFiles cfg fs root).filter
              (fun f => !(shouldIndexFile true (getExistingFiles st root) f)) = [] := by
            rw [List.filter_eq_nil_iff]
            intro f hf
            rw [hall f hf]
            simp
          rw [this]
          simp
        · show (crawlLoop cfg true (getExistingFiles st root) (scanFiles cfg fs root) st).2.1 = _
          rw [show crawlLoop cfg true (getExistingFiles st root) (scanFiles cfg fs root) st
              = (scanFiles cfg fs root).foldl
                  (crawlStep cfg true (getExistingFiles st root)) (st, 0, 0) from rfl]
          rw [(crawlFold_counts cfg true (getExistingFiles st root)
            (scanFiles cfg fs root) (st, 0, 0)).1]
          rw [List.filter_eq_self.mpr hall]
          simp

/-- Witness for C7: the two-file scenario — `a.txt` unchanged since the
snapshot, `b.md` modified — run incrementally skips exactly one file. -/
theorem C7_change_decision_witness :
    (1 : Nat) =
      ((scanFiles ⟨[], [".txt", ".md"], 1000, 1000, 100⟩
          ⟨["/r"], [⟨"/r/a.txt", 5, 50, some "hello".toList⟩,
                    ⟨"/r/b.md", 7, 99, some "goodbye".toList⟩]⟩ "/r").filter
        (fun f => !(shouldIndexFile false
          (getExistingFiles
            ⟨[⟨1, "/r/a.txt", 5, 50, ".txt"⟩, ⟨2, "/r/b.md", 6, 60, ".md"⟩],
             [⟨1, "chunk_0", "hello".toList⟩, ⟨2, "chunk_0", "bye".toList⟩]⟩
            "/r") f))).length :=
  (C7_change_decision ⟨[], [".txt", ".md"], 1000, 1000, 100⟩
    ⟨["/r"], [⟨"/r/a.txt", 5, 50, some "hello".toList⟩,
              ⟨"/r/b.md", 7, 99, some "goodbye".toList⟩]⟩
    ⟨[⟨1, "/r/a.txt", 5, 50, ".txt"⟩, ⟨2, "/r/b.md", 6, 60, ".md"⟩],
     [⟨1, "chunk_0", "hello".toList⟩, ⟨2, "chunk_0", "bye".toList⟩]⟩
    "/r" false ⟨1, 1, 0, 0⟩ _ rfl).2.1

end SmartFileSearch

namespace SmartFileSearch

lemma removedPathsOf_nodup (st : Store) (root : String) (scanned : List FsFile)
    (hwf : Store.WF st) : (removedPathsOf st root scanned).Nodup := by
  unfold removedPathsOf
  refine List.Nodup.filter _ ?_
  unfold getExistingFiles
  exact hwf.1.sublist ((List.filter_sublist _).map _)

lemma removedPathsOf_mem (st : Store) (root : String) (scanned : List FsFile)
    (p : String) :
    p ∈ removedPathsOf st root scanned ↔
      (p ∈ (getExistingFiles st root).map (fun r => r.path) ∧
       p ∉ scanned.map (fun f => f.path)) := by
  unfold removedPathsOf
  rw [List.mem_filter]
  constructor
  · intro ⟨h1, h2⟩
    refine ⟨h1, fun hcon => ?_⟩
    rw [Bool.not_eq_true', ← Bool.not_eq_true] at h2
    exact h2 (List.elem_iff.mpr hcon)
  · intro ⟨h1, h2⟩
    refine ⟨h1, ?_⟩
    cases hb : (scanned.map (fun f => f.path)).contains p
    · rfl
    · exact absurd (List.elem_iff.mp hb) h2

/-- Claim C6 (confirmed): after a successful `index_root`, every
snapshot path not observed in the walk is counted exactly once in
`removed` (the counter is the size of that duplicate-free set), its
file row is gone, and every docs row carrying the id that row had at
call time is gone — in particular no row with a disk-deleted path
survives an incremental re-run. -/
theorem C6_deletion_reconciled (cfg : Config) (fs : Filesystem) (st : Store)
    (root : String) (full : Bool) (stats : IndexStats) (st' : Store)
    (hwf : Store.WF st)
    (hrun : indexFolder cfg fs st root full = (.ok stats, st')) :
    stats.removed = (removedPathsOf st root (scanFiles cfg fs root)).length ∧
    (removedPathsOf st root (scanFiles cfg fs root)).Nodup ∧
    (∀ p, p ∈ removedPathsOf st root (scanFiles cfg fs root) ↔
      (p ∈ (getExistingFiles st root).map (fun r => r.path) ∧
       p ∉ (scanFiles cfg fs root).map (fun f => f.path))) ∧
    (∀ r ∈ st.files, r.path ∈ removedPathsOf st root (scanFiles cfg fs root) →
      (∀ fr ∈ st'.files, fr.path ≠ r.path) ∧
      (∀ d ∈ st'.docs, d.file_id ≠ r.id)) := by
  cases hauth : isAllowedRoot cfg root
  · rw [indexFolder_notAuthorized cfg fs st root full hauth] at hrun
    simp at hrun
  · cases hex : fs.dirs.contains root
    · rw [indexFolder_rootMissing cfg fs st root full hauth hex] at hrun
      simp at hrun
    · rw [indexFolder_ok cfg fs st root full hauth hex] at hrun
      rw [Prod.mk.injEq, Except.ok.injEq] at hrun
      obtain ⟨hstats, hst⟩ := hrun
      subst hstats
      refine ⟨rfl, removedPathsOf_nodup st root _ hwf,
        fun p => removedPathsOf_mem st root _ p, ?_⟩
      intro r hr hrp
      have hnotin : r.path ∉ (scanFiles cfg fs root).map (fun f => f.path) :=
        ((removedPathsOf_mem st root _ r.path).mp hrp).2
      have hnotscan : ∀ f ∈ scanFiles cfg fs root, f.path ≠ r.path := by
        intro f hf hcon
        exact hnotin (hcon ▸ List.mem_map.mpr ⟨f, hf, rfl⟩)
      have hsing : st.files.filter (fun x => x.path == r.path) = [r] :=
        store_filter_path_singleton hwf hr
      have hsingMid :
          (crawlLoop cfg full (getExistingFiles st root) (scanFiles cfg fs root)
            st).1.files.filter (fun x => x.path == r.path) = [r] := by
        rw [show crawlLoop cfg full (getExistingFiles st root) (scanFiles cfg fs root) st
            = (scanFiles cfg fs root).foldl
                (crawlStep cfg full (getExistingFiles st root)) (st, 0, 0) from rfl]
        rw [crawlFold_filter_path cfg full (getExistingFiles st root)
          (scanFiles cfg fs root) (st, 0, 0) hnotscan]
        exact hsing
      have hwfMid : Store.WF
          (crawlLoop cfg full (getExistingFiles st root) (scanFiles cfg fs root) st).1 := by
        rw [show crawlLoop cfg full (getExistingFiles st root) (scanFiles cfg fs root) st
            = (scanFiles cfg fs root).foldl
                (crawlStep cfg full (getExistingFiles st root)) (st, 0, 0) from rfl]
        exact crawlFold_WF cfg full (getExistingFiles st root)
          (scanFiles cfg fs root) (st, 0, 0) hwf
      have hrMid : r ∈
          (crawlLoop cfg full (getExistingFiles st root) (scanFiles cfg fs root) st).1.files := by
        have : r ∈ (crawlLoop cfg full (getExistingFiles st root)
            (scanFiles cfg fs root) st).1.files.filter (fun x => x.path == r.path) := by
          rw [hsingMid]
          exact List.mem_singleton.mpr rfl
        exact (List.mem_filter.mp this).1
      rw [← hst]
      exact foldl_remove_gone (removedPathsOf st root (scanFiles cfg fs root))
        (crawlLoop cfg full (getExistingFiles st root) (scanFiles cfg fs root) st).1
        r hwfMid hrMid hrp

/-- Witness for C6: the deletion scenario — `b.md` present in the store
but gone from disk; an incremental run removes its row and chunk. -/
theorem C6_deletion_reconciled_witness :
    (⟨0, 1, 1, 0⟩ : IndexStats).removed =
      (removedPathsOf
        ⟨[⟨1, "/r/a.txt", 5, 50, ".txt"⟩, ⟨2, "/r/b.md", 6, 60, ".md"⟩],
         [⟨1, "chunk_0", "hello".toList⟩, ⟨2, "chunk_0", "bye".toList⟩]⟩
        "/r"
        (scanFiles ⟨[], [".txt", ".md"], 1000, 1000, 100⟩
          ⟨["/r"], [⟨"/r/a.txt", 5, 50, some "hello".toList⟩]⟩ "/r")).length :=
  (C6_deletion_reconciled ⟨[], [".txt", ".md"], 1000, 1000, 100⟩
    ⟨["/r"], [⟨"/r/a.txt", 5, 50, some "hello".toList⟩]⟩
    ⟨[⟨1, "/r/a.txt", 5, 50, ".txt"⟩, ⟨2, "/r/b.md", 6, 60, ".md"⟩],
     [⟨1, "chunk_0", "hello".toList⟩, ⟨2, "chunk_0", "bye".toList⟩]⟩
    "/r" false ⟨0, 1, 1, 0⟩ _ ⟨by decide, by decide⟩ rfl).1

end SmartFileSearch

namespace SmartFileSearch

/-- Claim C3, amended: in full mode every accepted file whose extracted
text contains at least one non-whitespace character ends the crawl with
a file row and at least one chunk row (the counterexample shows the
claim fails for accepted files whose extraction is empty — and
whitespace-only long texts chunk to nothing — which `_index_file` skips
without writing).  The hypotheses: a well-formed store, the faithfulness
bound on the chunker parameters, and walk paths free of duplicates (a
filesystem enumeration lists each path once). -/
theorem C3_full_mode_completeness (cfg : Config) (fs : Filesystem)
    (st : Store) (root : String) (stats : IndexStats) (st' : Store)
    (hwf : Store.WF st)
    (hfaithful : 2 * cfg.chunkOverlap < cfg.chunkSize)
    (hnodup : ((scanFiles cfg fs root).map (fun f => f.path)).Nodup)
    (hrun : indexFolder cfg fs st root true = (.ok stats, st'))
    (f : FsFile) (hf : f ∈ scanFiles cfg fs root)
    (t : List Char) (ht : f.text = some t)
    (hchar : ∃ c ∈ t, isPySpace c = false) :
    ∃ fr ∈ st'.files, fr.path = f.path ∧ ∃ d ∈ st'.docs, d.file_id = fr.id := by
  have htne : ¬ t.isEmpty = true := by
    obtain ⟨c, hc, _⟩ := hchar
    intro hcon
    rw [List.isEmpty_iff.mp hcon] at hc
    cases hc
  have hext : extractContent cfg f = chunkText cfg.chunkSize cfg.chunkOverlap t := by
    have h0 : extractContent cfg f =
        if t.isEmpty then [] else chunkText cfg.chunkSize cfg.chunkOverlap t := by
      unfold extractContent
      rw [ht]
    rw [h0, if_neg htne]
  have hchne : chunkText cfg.chunkSize cfg.chunkOverlap t ≠ [] :=
    chunkText_ne_nil cfg.chunkSize cfg.chunkOverlap t hfaithful hchar
  have hne : ¬ (extractContent cfg f).isEmpty = true := by
    rw [hext]
    intro hcon
    exact hchne (List.isEmpty_iff.mp hcon)
  cases hauth : isAllowedRoot cfg root
  · rw [indexFolder_notAuthorized cfg fs st root true hauth] at hrun
    simp at hrun
  · cases hex : fs.dirs.contains root
    · rw [indexFolder_rootMissing cfg fs st root true hauth hex] at hrun
      simp at hrun
    · rw [indexFolder_ok cfg fs st root true hauth hex] at hrun
      rw [Prod.mk.injEq, Except.ok.injEq] at hrun
      obtain ⟨hstats, hst⟩ := hrun
      have hQ := crawlFold_indexed_file cfg (getExistingFiles st root)
        (scanFiles cfg fs root) (st, 0, 0) f hf hnodup hne
      have hwfMid : Store.WF
          ((scanFiles cfg fs root).foldl
            (crawlStep cfg true (getExistingFiles st root)) (st, 0, 0)).1 :=
        crawlFold_WF cfg true (getExistingFiles st root)
          (scanFiles cfg fs root) (st, 0, 0) hwf
      have hnorem : ∀ q ∈ removedPathsOf st root (scanFiles cfg fs root),
          q ≠ f.path := by
        intro q hq hcon
        have := ((removedPathsOf_mem st root _ q).mp hq).2
        exact this (hcon ▸ List.mem_map.mpr ⟨f, hf, rfl⟩)
      rw [← hst]
      exact removeFold_keepQ (removedPathsOf st root (scanFiles cfg fs root))
        ((scanFiles cfg fs root).foldl
          (crawlStep cfg true (getExistingFiles st root)) (st, 0, 0)).1
        hwfMid hnorem hQ

/-- Witness for C3's amended theorem: a full crawl of one non-empty
`.txt` file leaves a file row and a chunk row for it. -/
theorem C3_full_mode_completeness_witness :
    ∃ fr ∈ (indexFolder ⟨[], [".txt"], 1000, 1000, 100⟩
        ⟨["/r"], [⟨"/r/a.txt", 5, 50, some "hello".toList⟩]⟩
        ⟨[], []⟩ "/r" true).2.files,
      fr.path = "/r/a.txt" ∧
      ∃ d ∈ (indexFolder ⟨[], [".txt"], 1000, 1000, 100⟩
          ⟨["/r"], [⟨"/r/a.txt", 5, 50, some "hello".toList⟩]⟩
          ⟨[], []⟩ "/r" true).2.docs, d.file_id = fr.id :=
  C3_full_mode_completeness ⟨[], [".txt"], 1000, 1000, 100⟩
    ⟨["/r"], [⟨"/r/a.txt", 5, 50, some "hello".toList⟩]⟩
    ⟨[], []⟩ "/r" ⟨1, 0, 0, 0⟩ _ ⟨by decide, by decide⟩ (by decide) (by decide)
    rfl ⟨"/r/a.txt", 5, 50, some "hello".toList⟩ (by decide)
    "hello".toList rfl ⟨'h', by decide, by decide⟩

end SmartFileSearch
